import Mathlib

/-!
Verification development for the lyric-video maker repository.

JavaScript numbers are modelled as exact rationals (`ℚ`), JavaScript strings
as `List Char`.  `Math.floor` is `Int.floor`, the JavaScript `%` operator on
non-negative operands is `jsFmod` below, and `x.toFixed(3)` follows the
ECMAScript specification: the integer `n` minimising `|n / 1000 - x|`, the
larger `n` on ties.

Sources embedded here:
  * `TimedLyric` and the continuous-index resolver of `src/unnamed/part_005`
    (`lyricsToRender` padding, `continuousIndex`, `getLyricStyle`);
  * `currentIndex` of `src/components/VideoPlayer.tsx`;
  * `activeLyricIndex` and `scrollPositionIndex` of `src/unnamed/part_008`;
  * the frame-stepped export loop `handleStableExport` of `src/unnamed/part_008`
    and its progress emissions;
  * `formatSrtTime` / `generateSrtContent` (identical in
    `src/components/VideoPlayer.tsx`, `src/unnamed/part_005` and
    `src/unnamed/part_008`) and `srtTimeToSeconds` /
    `parseSrtWithTimestamps` of `src/App.tsx`.
-/

/-- One lyric line with its time window: `{ text, startTime, endTime }`. -/
structure TimedLyric where
  text : List Char
  startTime : ℚ
  endTime : ℚ
deriving DecidableEq

/-- Default record used only to make positional accessors total. -/
def dummyLyric : TimedLyric := ⟨[], 0, 0⟩

/-- `startTime` of the `i`-th lyric (total accessor). -/
def startAt (lyrics : List TimedLyric) (i : ℕ) : ℚ :=
  (lyrics.getD i dummyLyric).startTime

/-- `endTime` of the `i`-th lyric (total accessor). -/
def endAt (lyrics : List TimedLyric) (i : ℕ) : ℚ :=
  (lyrics.getD i dummyLyric).endTime

/-- Boolean check that each line has `startTime ≤ endTime` and consecutive
lines have `endTime ≤` next `startTime` (the well-formedness the spec calls
an ordered sequence). -/
def orderedb : List TimedLyric → Bool
  | [] => true
  | [l] => decide (l.startTime ≤ l.endTime)
  | a :: b :: rest =>
      decide (a.startTime ≤ a.endTime) && decide (a.endTime ≤ b.startTime)
        && orderedb (b :: rest)

/-- Propositional form of `orderedb`. -/
def ordered (lyrics : List TimedLyric) : Prop := orderedb lyrics = true

instance (lyrics : List TimedLyric) : Decidable (ordered lyrics) :=
  inferInstanceAs (Decidable (orderedb lyrics = true))

/-- Boolean check that `startTime` is non-decreasing along the sequence. -/
def startsSortedb : List TimedLyric → Bool
  | [] => true
  | [_] => true
  | a :: b :: rest => decide (a.startTime ≤ b.startTime) && startsSortedb (b :: rest)

/-- Propositional form of `startsSortedb`. -/
def startsSorted (lyrics : List TimedLyric) : Prop := startsSortedb lyrics = true

instance (lyrics : List TimedLyric) : Decidable (startsSorted lyrics) :=
  inferInstanceAs (Decidable (startsSortedb lyrics = true))

/-- The scan loop of `continuousIndex` in `src/unnamed/part_005` (lines
149–173): walk the sequence; on the first line whose half-open window
contains `t` return its render slot `i + 2`; on a gap
`[endTime, next.startTime)` return the interpolated value; otherwise
continue, falling through to the safeguard value `1`. -/
def lyricScan (t : ℚ) : List TimedLyric → ℕ → ℚ
  | [], _ => 1
  | lyric :: rest, i =>
    if lyric.startTime ≤ t ∧ t < lyric.endTime then (i : ℚ) + 2
    else
      match rest with
      | [] => 1
      | next :: _ =>
        if lyric.endTime ≤ t ∧ t < next.startTime then
          let gapDuration := next.startTime - lyric.endTime
          let transitionDuration := min (1/2 : ℚ) gapDuration
          let timeIntoGap := t - lyric.endTime
          if timeIntoGap < transitionDuration then
            ((i : ℚ) + 2) + timeIntoGap / transitionDuration
          else (i : ℚ) + 1 + 2
        else lyricScan t rest (i + 1)

/-- The `continuousIndex` memo of `src/unnamed/part_005` (lines 120–177):
empty input or the pre-playback state yields slot `1`; before the first
lyric a one-second pre-fade interpolates from slot `1` toward slot `2`;
at or after the last lyric's `endTime` it settles on
`timedLyrics.length - 1 + 2`; otherwise the scan loop runs. -/
def continuousIndex (timedLyrics : List TimedLyric) (currentTime : ℚ)
    (isPlaying : Bool) : ℚ :=
  match timedLyrics with
  | [] => 1
  | firstLyric :: restLyrics =>
    if currentTime = 0 ∧ isPlaying = false then 1
    else if currentTime < firstLyric.startTime then
      let preFadeDuration : ℚ := 1
      let timeToStart := firstLyric.startTime
      if currentTime > timeToStart - preFadeDuration then
        1 + (currentTime - (timeToStart - preFadeDuration)) / preFadeDuration
      else 1
    else if (restLyrics.getLastD firstLyric).endTime ≤ currentTime then
      ((firstLyric :: restLyrics).length : ℚ) - 1 + 2
    else lyricScan currentTime (firstLyric :: restLyrics) 0

/-- The `currentIndex` memo of `src/components/VideoPlayer.tsx` (lines
166–188): the pre-playback state yields slot `1`; otherwise `findIndex`
over the half-open windows, offset by the two leading dummy slots; failing
that, slot `length + 2` past the last lyric's `endTime`, else slot `1`. -/
def currentIndex (timedLyrics : List TimedLyric) (currentTime : ℚ)
    (isPlaying : Bool) : ℕ :=
  if currentTime = 0 ∧ isPlaying = false then 1
  else
    match timedLyrics.findIdx?
        (fun lyric => decide (lyric.startTime ≤ currentTime ∧ currentTime < lyric.endTime)) with
    | some index => index + 2
    | none =>
      match timedLyrics with
      | [] => 1
      | f :: r =>
        if (r.getLastD f).endTime ≤ currentTime then (f :: r).length + 2 else 1

/-- The `activeLyricIndex` memo of `src/unnamed/part_008` (lines 144–148):
`findIndex` over half-open windows, `-1` when no line is active. -/
def activeLyricIndex (timedLyrics : List TimedLyric) (delayedCurrentTime : ℚ) : ℤ :=
  match timedLyrics.findIdx?
      (fun lyric => decide (lyric.startTime ≤ delayedCurrentTime ∧ delayedCurrentTime < lyric.endTime)) with
  | some index => (index : ℤ)
  | none => -1

/-- The `scrollPositionIndex` memo of `src/unnamed/part_008` (lines 150–168):
when ended, `length + 2`; else the last index whose `startTime` has been
passed (the loop breaks at the first future `startTime`), offset by 2, or
`1` when no `startTime` has been passed. -/
def scrollPositionIndex (timedLyrics : List TimedLyric) (delayedCurrentTime : ℚ)
    (isEnded : Bool) : ℕ :=
  if isEnded then timedLyrics.length + 2
  else
    let passed := timedLyrics.takeWhile (fun l => decide (l.startTime ≤ delayedCurrentTime))
    if passed.length = 0 then 1 else (passed.length - 1) + 2

/-- Numeric fields of the style record computed by `getLyricStyle` in
`src/unnamed/part_005` (lines 378–414); the colour string and CSS
transition are presentation-only and not modelled. -/
structure LyricStyle where
  opacity : ℚ
  scale : ℚ
  fontSize : ℚ
  fontWeight : ℤ
deriving DecidableEq

/-- `getLyricStyle` of `src/unnamed/part_005`: distance-based opacity
(`max(0, 1 - distance/2)`, snapped to `0` at or below `0.05`), scale,
font size and weight, where `focusIndex` is the continuous index. -/
def getLyricStyle (fontSize : ℚ) (focusIndex : ℚ) (index : ℕ) : LyricStyle :=
  let distance := |(index : ℚ) - focusIndex|
  let opacity := max 0 (1 - distance / 2)
  let scale := 1 - (min 2 distance) * (1/10)
  let calculatedFontSize := fontSize * (1 - (min 1 distance) * (3/10))
  let fontWeight := 700 - round ((min 1 distance) * 200)
  { opacity := if opacity > 1/20 then opacity else 0
    scale := scale
    fontSize := calculatedFontSize
    fontWeight := fontWeight }

/-- `totalFrames = Math.ceil(duration * FRAME_RATE)` with `FRAME_RATE = 30`
(`src/unnamed/part_008`, `handleStableExport`). -/
def totalFrames (duration : ℚ) : ℕ := (⌈duration * 30⌉).toNat

/-- State threaded through the frame-stepped export loop: the preview clock
(set by `setCurrentTime`), accumulated wall-clock render time (irrelevant
to the clock, kept to state determinism), and the captured
`(frameIndex, frameTime)` pairs. -/
structure ExportRun where
  currentTime : ℚ
  wallClock : ℚ
  frames : List (ℕ × ℚ)
deriving DecidableEq

/-- One iteration of the frame loop in `handleStableExport`
(`src/unnamed/part_008`, lines 305–323): `time = i / FRAME_RATE`,
`setCurrentTime(time)`, then the rasterisation (whose wall-clock cost
`renderDelay i` does not influence the clock) captures the frame. -/
def stableExportStep (renderDelay : ℕ → ℚ) (s : ExportRun) (i : ℕ) : ExportRun :=
  let time : ℚ := (i : ℚ) / 30
  { currentTime := time
    wallClock := s.wallClock + renderDelay i
    frames := s.frames ++ [(i, time)] }

/-- The frame loop of `handleStableExport`: `for (i = 0; i < totalFrames; i++)`
over `stableExportStep`, starting from a reset clock. -/
def handleStableExport (duration : ℚ) (renderDelay : ℕ → ℚ) : ExportRun :=
  (List.range (totalFrames duration)).foldl (stableExportStep renderDelay) ⟨0, 0, []⟩

/-- Progress percentages emitted during the frame-rendering phase of
`handleStableExport`: `(i / totalFrames) * 100` for each frame `i`. -/
def renderProgressList (duration : ℚ) : List ℚ :=
  (List.range (totalFrames duration)).map
    (fun i : ℕ => ((i : ℚ) / (totalFrames duration : ℚ)) * 100)

/-- Progress percentages emitted by the ffmpeg logger during encoding:
`Math.min(100, (currentFrame / totalFrames) * 100)` for each frame count
the encoder reports. -/
def encodeProgressList (duration : ℚ) (reportedFrames : List ℕ) : List ℚ :=
  reportedFrames.map
    (fun cf : ℕ => min 100 (((cf : ℚ) / (totalFrames duration : ℚ)) * 100))

/-- All numeric progress values emitted by one uncancelled run of
`handleStableExport`, in order: the rendering phase, the `progress: 0`
reset that starts the encoding phase, the encoder reports, and the final
`progress: 100` before download. -/
def stableExportProgress (duration : ℚ) (reportedFrames : List ℕ) : List ℚ :=
  renderProgressList duration ++ 0 :: (encodeProgressList duration reportedFrames ++ [100])

/-- Character for a decimal digit `d < 10`. -/
def digitChar (d : ℕ) : Char := Char.ofNat (48 + d)

/-- Decimal digits of a natural number, most significant first; `fuel`
bounds the recursion depth and any `fuel > n` is sufficient. -/
def natDigitsAux : ℕ → ℕ → List Char
  | 0, _ => []
  | fuel + 1, n =>
    if n < 10 then [digitChar n]
    else natDigitsAux fuel (n / 10) ++ [digitChar (n % 10)]

/-- Decimal representation of a natural number (JavaScript `String(n)`). -/
def natDigits (n : ℕ) : List Char := natDigitsAux (n + 1) n

/-- Value of a list of decimal digit characters. -/
def digitsToNat (s : List Char) : ℕ :=
  s.foldl (fun acc c => acc * 10 + (c.toNat - 48)) 0

/-- JavaScript `parseInt(s, 10)` on the strings this code builds: the
leading run of digits, `NaN` (modelled as `none`) when there is none. -/
def jsParseInt (s : List Char) : Option ℕ :=
  let ds := s.takeWhile Char.isDigit
  if ds.isEmpty then none else some (digitsToNat ds)

/-- JavaScript `s.padStart(2, '0')`. -/
def padStart2 (s : List Char) : List Char := List.replicate (2 - s.length) '0' ++ s

/-- JavaScript `s.padStart(3, '0')` (used to model the three digits of
`toFixed(3)`). -/
def padStart3 (s : List Char) : List Char := List.replicate (3 - s.length) '0' ++ s

/-- JavaScript `String(n)` for an integer. -/
def intToStr (n : ℤ) : List Char :=
  if n < 0 then '-' :: natDigits n.natAbs else natDigits n.toNat

/-- Truncation toward zero, as used by the JavaScript `%` operator. -/
def ratTrunc (q : ℚ) : ℤ := if 0 ≤ q then ⌊q⌋ else -⌊-q⌋

/-- The JavaScript remainder `a % b`: `a - b * trunc(a / b)`. -/
def jsFmod (a b : ℚ) : ℚ := a - b * (ratTrunc (a / b))

/-- Model of `(x).toFixed(3).substring(2)` for `x ∈ [0, 1)`: ECMAScript
`toFixed(3)` renders the nearest-thousandth integer `n = ⌊1000x + 1/2⌋`
(ties to the larger `n`) as `0.` followed by three zero-padded digits —
or `1.000` when `n = 1000` — and `substring(2)` keeps exactly the three
digits after the point, i.e. `n % 1000` zero-padded. -/
def toFixed3sub2 (x : ℚ) : List Char :=
  padStart3 (natDigits ((⌊x * 1000 + 1/2⌋).toNat % 1000))

/-- `formatSrtTime` (identical in `src/components/VideoPlayer.tsx` lines
231–237, `src/unnamed/part_005` lines 238–244 and `src/unnamed/part_008`
lines 216–222): zero-padded `HH:MM:SS,mmm` with
`h = Math.floor(seconds/3600)`, `m = Math.floor((seconds%3600)/60)`,
`s = Math.floor(seconds%60)` and `mmm = (seconds%1).toFixed(3).substring(2)`. -/
def formatSrtTime (seconds : ℚ) : List Char :=
  let h := ⌊seconds / 3600⌋
  let m := ⌊(jsFmod seconds 3600) / 60⌋
  let s := ⌊jsFmod seconds 60⌋
  padStart2 (intToStr h) ++ ':' ::
    (padStart2 (intToStr m) ++ ':' ::
      (padStart2 (intToStr s) ++ ',' :: toFixed3sub2 (jsFmod seconds 1)))

/-- Modelled from the spec: the formatter the specification describes, with
the three millisecond digits obtained by truncating (not rounding) the
fractional-second component; kept only to compare against `formatSrtTime`. -/
def formatSrtTimeTruncSpec (seconds : ℚ) : List Char :=
  let h := ⌊seconds / 3600⌋
  let m := ⌊(jsFmod seconds 3600) / 60⌋
  let s := ⌊jsFmod seconds 60⌋
  padStart2 (intToStr h) ++ ':' ::
    (padStart2 (intToStr m) ++ ':' ::
      (padStart2 (intToStr s) ++ ',' ::
        padStart3 (natDigits ((⌊jsFmod seconds 1 * 1000⌋).toNat))))

/-- JavaScript `s.split(regex)` for a single-character class such as
`/[:,]/`: cut at every character belonging to `seps`. -/
def splitAnyOf (seps : List Char) : List Char → List (List Char)
  | [] => [[]]
  | c :: rest =>
    if c ∈ seps then [] :: splitAnyOf seps rest
    else
      match splitAnyOf seps rest with
      | [] => [[c]]
      | hd :: tl => (c :: hd) :: tl

/-- JavaScript `s.split(sep)` for a non-empty literal separator: scan left
to right, cutting at each non-overlapping occurrence of `sep`.  `fuel`
bounds the recursion; any `fuel ≥ s.length` is sufficient. -/
def jsSplitAux (sep : List Char) : ℕ → List Char → List (List Char)
  | _, [] => [[]]
  | 0, s => [s]
  | fuel + 1, c :: rest =>
    if sep ≠ [] ∧ sep.isPrefixOf (c :: rest) then
      [] :: jsSplitAux sep fuel (List.drop (sep.length - 1) rest)
    else
      match jsSplitAux sep fuel rest with
      | [] => [[c]]
      | hd :: tl => (c :: hd) :: tl

/-- JavaScript `s.split(sep)` for a literal separator. -/
def jsSplit (sep s : List Char) : List (List Char) := jsSplitAux sep s.length s

/-- JavaScript `s.includes(pat)`. -/
def containsSub (pat : List Char) : List Char → Bool
  | [] => pat.isEmpty
  | c :: rest => pat.isPrefixOf (c :: rest) || containsSub pat rest

/-- Whitespace as relevant to JavaScript `trim` on the strings this code
builds. -/
def jsIsWS (c : Char) : Bool := c = ' ' || c = '\n' || c = '\t' || c = '\r'

/-- JavaScript `s.trim()`: strip whitespace from both ends. -/
def jsTrim (s : List Char) : List Char :=
  ((s.dropWhile jsIsWS).reverse.dropWhile jsIsWS).reverse

/-- `srtTimeToSeconds` of `src/App.tsx` (lines 15–22): split on `/[:,]/`,
`parseInt` the four parts, combine as
`h*3600 + m*60 + s + ms/1000`; a missing or non-numeric part makes the
JavaScript result `NaN`, modelled as `none`. -/
def srtTimeToSeconds (time : List Char) : Option ℚ :=
  let parts := splitAnyOf [':', ','] time
  match jsParseInt (parts.getD 0 []), jsParseInt (parts.getD 1 []),
      jsParseInt (parts.getD 2 []), jsParseInt (parts.getD 3 []) with
  | some hours, some minutes, some seconds, some milliseconds =>
      some ((hours : ℚ) * 3600 + (minutes : ℚ) * 60 + (seconds : ℚ)
        + (milliseconds : ℚ) / 1000)
  | _, _, _, _ => none

/-- The literal `' --> '` separator of an SRT time line. -/
def srtSepArrow : List Char := [' ', '-', '-', '>', ' ']

/-- One block appended by `generateSrtContent`:
`` `${index + 1}\n${startTime} --> ${endTime}\n${lyric.text}\n\n` ``. -/
def srtBlock (lyric : TimedLyric) (index : ℕ) : List Char :=
  natDigits (index + 1) ++ '\n' ::
    (formatSrtTime lyric.startTime ++ srtSepArrow ++ formatSrtTime lyric.endTime ++ '\n' ::
      (lyric.text ++ ['\n', '\n']))

/-- The `forEach` accumulation of `generateSrtContent`, carrying the
running index. -/
def generateSrtAux : List TimedLyric → ℕ → List Char
  | [], _ => []
  | lyric :: rest, index => srtBlock lyric index ++ generateSrtAux rest (index + 1)

/-- `generateSrtContent` (identical in `src/components/VideoPlayer.tsx`
lines 239–247, `src/unnamed/part_005` lines 246–254 and
`src/unnamed/part_008` lines 224–232). -/
def generateSrtContent (timedLyrics : List TimedLyric) : List Char :=
  generateSrtAux timedLyrics 0

/-- Output record of the SRT parser; `none` in a time field models the
`NaN` a malformed time string produces. -/
structure ParsedLyric where
  text : List Char
  startTime : Option ℚ
  endTime : Option ℚ
deriving DecidableEq

/-- Processing of one block inside `parseSrtWithTimestamps`
(`src/App.tsx` lines 29–49): split into lines, require at least three,
require a truthy time line containing `-->`, split it on `' --> '`
(fewer than two pieces throws inside the `try`, skipping the block), and
build the entry from the remaining lines joined by newlines. -/
def parseBlock (block : List Char) : Option ParsedLyric :=
  let lines := jsSplit ['\n'] block
  if lines.length < 3 then none
  else
    let timeLine := lines.getD 1 []
    if timeLine ≠ [] ∧ containsSub ['-', '-', '>'] timeLine = true then
      match jsSplit srtSepArrow timeLine with
      | startTimeStr :: endTimeStr :: _ =>
          some { text := List.intercalate ['\n'] (lines.drop 2)
                 startTime := srtTimeToSeconds startTimeStr
                 endTime := srtTimeToSeconds endTimeStr }
      | _ => none
    else none

/-- `parseSrtWithTimestamps` of `src/App.tsx` (lines 25–51):
`trim`, remove `'\r'`, split on blank lines, then accumulate the
successfully parsed blocks in order. -/
def parseSrtWithTimestamps (srtContent : List Char) : List ParsedLyric :=
  let blocks := jsSplit ['\n', '\n'] ((jsTrim srtContent).filter (fun c => c ≠ '\r'))
  blocks.foldl
    (fun acc block =>
      match parseBlock block with
      | some entry => acc ++ [entry]
      | none => acc) []

/-- The time line of a generated block. -/
def timeLineOf (lyric : TimedLyric) : List Char :=
  formatSrtTime lyric.startTime ++ srtSepArrow ++ formatSrtTime lyric.endTime

/-- A generated block without its trailing blank-line separator. -/
def blockBody (lyric : TimedLyric) (index : ℕ) : List Char :=
  natDigits (index + 1) ++ '\n' :: (timeLineOf lyric ++ '\n' :: lyric.text)

/-- The generated SRT content with the final `"\n\n"` removed: block bodies
joined by blank lines. -/
def coreJoin : List TimedLyric → ℕ → List Char
  | [], _ => []
  | [l], index => blockBody l index
  | l :: rest, index => blockBody l index ++ '\n' :: '\n' :: coreJoin rest (index + 1)

/-- The list of block bodies of a lyric sequence, with their indices. -/
def bodiesList : List TimedLyric → ℕ → List (List Char)
  | [], _ => []
  | l :: rest, index => blockBody l index :: bodiesList rest (index + 1)

/-- No two adjacent newline characters. -/
def noDoubleNL : List Char → Bool
  | [] => true
  | [_] => true
  | a :: b :: rest => !(a = '\n' && b = '\n') && noDoubleNL (b :: rest)

/-- A time value that is a whole non-negative number of milliseconds. -/
def MsTime (q : ℚ) : Prop := ∃ k : ℕ, q = (k : ℚ) / 1000

/-- The texts for which the SRT round trip can be exact: non-empty, free of
newline and carriage-return characters, and not ending in whitespace
(`trim` would strip trailing whitespace of the last block). -/
def TextOK (t : List Char) : Prop :=
  t ≠ [] ∧ (∀ c ∈ t, c ≠ '\n' ∧ c ≠ '\r') ∧ jsIsWS (t.getLastD 'x') = false

/-- The value the gap branch of the scan loop computes for the gap after
line `j`: linear interpolation from slot `j + 2` toward slot `j + 3` over
`min(0.5, gapDuration)` anchored at the gap's start, then a hold at
slot `j + 3`. -/
def gapValue (lyrics : List TimedLyric) (j : ℕ) (t : ℚ) : ℚ :=
  if t - endAt lyrics j < min (1/2 : ℚ) (startAt lyrics (j+1) - endAt lyrics j)
  then ((j : ℚ) + 2) + (t - endAt lyrics j) / min (1/2 : ℚ) (startAt lyrics (j+1) - endAt lyrics j)
  else (j : ℚ) + 1 + 2

/-! ### Unfolding equations (definitional) -/

theorem lyricScan_nil (t : ℚ) (i : ℕ) : lyricScan t [] i = 1 := rfl

theorem lyricScan_cons_nil (t : ℚ) (lyric : TimedLyric) (i : ℕ) :
    lyricScan t [lyric] i =
      if lyric.startTime ≤ t ∧ t < lyric.endTime then (i : ℚ) + 2 else 1 := rfl

theorem lyricScan_cons_cons (t : ℚ) (lyric next : TimedLyric) (rest : List TimedLyric) (i : ℕ) :
    lyricScan t (lyric :: next :: rest) i =
      if lyric.startTime ≤ t ∧ t < lyric.endTime then (i : ℚ) + 2
      else if lyric.endTime ≤ t ∧ t < next.startTime then
        (if t - lyric.endTime < min (1/2 : ℚ) (next.startTime - lyric.endTime) then
          ((i : ℚ) + 2) + (t - lyric.endTime) / min (1/2 : ℚ) (next.startTime - lyric.endTime)
        else (i : ℚ) + 1 + 2)
      else lyricScan t (next :: rest) (i + 1) := rfl

theorem continuousIndex_nil (t : ℚ) (p : Bool) : continuousIndex [] t p = 1 := rfl

theorem continuousIndex_cons (f : TimedLyric) (r : List TimedLyric) (t : ℚ) (p : Bool) :
    continuousIndex (f :: r) t p =
      if t = 0 ∧ p = false then 1
      else if t < f.startTime then
        (if t > f.startTime - 1 then 1 + (t - (f.startTime - 1)) / 1 else 1)
      else if (r.getLastD f).endTime ≤ t then ((f :: r).length : ℚ) - 1 + 2
      else lyricScan t (f :: r) 0 := rfl

/-! ### Helper lemmas -/

theorem handleStableExport_frames (duration : ℚ) (renderDelay : ℕ → ℚ) :
    (handleStableExport duration renderDelay).frames =
      (List.range (totalFrames duration)).map (fun i : ℕ => ((i : ℕ), (i : ℚ) / 30)) := by
  have key : ∀ (l : List ℕ) (s : ExportRun),
      (l.foldl (stableExportStep renderDelay) s).frames
        = s.frames ++ l.map (fun i : ℕ => ((i : ℕ), (i : ℚ) / 30)) := by
    intro l
    induction l with
    | nil => intro s; simp
    | cons a l ih => intro s; simp [stableExportStep, ih]
  simpa using key (List.range (totalFrames duration)) ⟨0, 0, []⟩

theorem lyricScan_bounds (t : ℚ) : ∀ (l : List TimedLyric) (i : ℕ),
    1 ≤ lyricScan t l i ∧ lyricScan t l i ≤ (i : ℚ) + l.length + 1 := by
  intro l
  induction l with
  | nil =>
    intro i
    have hi : (0:ℚ) ≤ (i : ℚ) := Nat.cast_nonneg i
    rw [lyricScan_nil]
    refine ⟨le_refl 1, ?_⟩
    simp only [List.length_nil]
    push_cast
    linarith
  | cons lyric rest ih =>
    intro i
    have hi : (0:ℚ) ≤ (i : ℚ) := Nat.cast_nonneg i
    match rest, ih with
    | [], _ =>
      rw [lyricScan_cons_nil]
      by_cases hact : lyric.startTime ≤ t ∧ t < lyric.endTime
      · rw [if_pos hact]
        refine ⟨by linarith, ?_⟩
        simp only [List.length_cons, List.length_nil]
        push_cast
        linarith
      · rw [if_neg hact]
        refine ⟨le_refl 1, ?_⟩
        simp only [List.length_cons, List.length_nil]
        push_cast
        linarith
    | next :: rest', ih =>
      rw [lyricScan_cons_cons]
      by_cases hact : lyric.startTime ≤ t ∧ t < lyric.endTime
      · rw [if_pos hact]
        refine ⟨by linarith, ?_⟩
        simp only [List.length_cons]
        push_cast
        linarith
      · rw [if_neg hact]
        by_cases hgap : lyric.endTime ≤ t ∧ t < next.startTime
        · rw [if_pos hgap]
          have hgappos : (0:ℚ) < next.startTime - lyric.endTime := by
            have h1 := hgap.1; have h2 := hgap.2; linarith
          have hw : (0:ℚ) < min (1/2 : ℚ) (next.startTime - lyric.endTime) :=
            lt_min (by norm_num) hgappos
          have hx : (0:ℚ) ≤ t - lyric.endTime := by
            have h1 := hgap.1; linarith
          by_cases hin : t - lyric.endTime < min (1/2 : ℚ) (next.startTime - lyric.endTime)
          · rw [if_pos hin]
            have h01 : (0:ℚ) ≤ (t - lyric.endTime) / min (1/2 : ℚ) (next.startTime - lyric.endTime) :=
              div_nonneg hx (le_of_lt hw)
            have h02 : (t - lyric.endTime) / min (1/2 : ℚ) (next.startTime - lyric.endTime) < 1 :=
              (div_lt_one hw).mpr hin
            refine ⟨by linarith, ?_⟩
            simp only [List.length_cons]
            push_cast
            linarith
          · rw [if_neg hin]
            refine ⟨by linarith, ?_⟩
            simp only [List.length_cons]
            push_cast
            linarith
        · rw [if_neg hgap]
          rcases ih (i + 1) with ⟨hlo, hhi⟩
          refine ⟨hlo, le_trans hhi ?_⟩
          simp only [List.length_cons]
          push_cast
          linarith

/-! ### C1: deterministic frame-stepped export -/

/-- C1: the frame-stepped export loop renders `ceil(duration * 30)` frames;
frame `i` is captured with the clock set to exactly `i / 30` seconds; and the
`(frameIndex, frameTime)` sequence is independent of how long each render
takes, hence identical across runs on the same inputs. -/
theorem claim_C1_frame_stepped_export_deterministic
    (duration : ℚ) (renderDelay renderDelay' : ℕ → ℚ) (hd : 0 ≤ duration) :
    (((handleStableExport duration renderDelay).frames.length : ℤ) = ⌈duration * 30⌉) ∧
    (∀ i, i < (handleStableExport duration renderDelay).frames.length →
      (handleStableExport duration renderDelay).frames.getD i (0, 0) = (i, (i : ℚ) / 30)) ∧
    (handleStableExport duration renderDelay).frames
      = (handleStableExport duration renderDelay').frames := by
  have hf := handleStableExport_frames duration renderDelay
  have hf' := handleStableExport_frames duration renderDelay'
  refine ⟨?_, ?_, ?_⟩
  · rw [hf]
    simp only [List.length_map, List.length_range, totalFrames]
    exact Int.toNat_of_nonneg (Int.ceil_nonneg (by positivity))
  · intro i hi
    rw [hf] at hi ⊢
    simp only [List.length_map, List.length_range] at hi
    rw [List.getD_eq_getElem _ _ (by simpa using hi)]
    simp
  · rw [hf, hf']

/-- Witness for C1 at `duration = 1/10`. -/
theorem claim_C1_witness :
    (0 ≤ (1:ℚ)/10) ∧
    (((handleStableExport (1/10) (fun _ => 0)).frames.length : ℤ) = ⌈(1:ℚ)/10 * 30⌉) :=
  ⟨by norm_num,
    (claim_C1_frame_stepped_export_deterministic (1/10) (fun _ => 0) (fun _ => 1)
      (by norm_num)).1⟩

/-! ### C9: range invariant of the continuous index -/

/-- C9: for every non-empty lyric sequence and every `(currentTime, isPlaying)`
input the continuous index lies in `[1, length + 1]`; in particular it is
never the leading slot `0` nor either trailing sentinel slot `length + 2`,
`length + 3`. -/
theorem claim_C9_continuousIndex_range_invariant
    (lyrics : List TimedLyric) (t : ℚ) (isPlaying : Bool) (hne : lyrics ≠ []) :
    1 ≤ continuousIndex lyrics t isPlaying ∧
    continuousIndex lyrics t isPlaying ≤ (lyrics.length : ℚ) + 1 ∧
    continuousIndex lyrics t isPlaying ≠ 0 ∧
    continuousIndex lyrics t isPlaying ≠ (lyrics.length : ℚ) + 2 ∧
    continuousIndex lyrics t isPlaying ≠ (lyrics.length : ℚ) + 3 := by
  match lyrics, hne with
  | f :: r, _ =>
    have hn : (1:ℚ) ≤ ((f :: r).length : ℚ) := by
      simp only [List.length_cons]
      push_cast
      linarith [Nat.cast_nonneg (α := ℚ) r.length]
    have main : 1 ≤ continuousIndex (f :: r) t isPlaying ∧
        continuousIndex (f :: r) t isPlaying ≤ ((f :: r).length : ℚ) + 1 := by
      rw [continuousIndex_cons]
      by_cases h0 : t = 0 ∧ isPlaying = false
      · rw [if_pos h0]; exact ⟨le_refl 1, by linarith⟩
      · rw [if_neg h0]
        by_cases hpre : t < f.startTime
        · rw [if_pos hpre]
          by_cases hfade : t > f.startTime - 1
          · rw [if_pos hfade, div_one]
            constructor <;> linarith
          · rw [if_neg hfade]
            exact ⟨le_refl 1, by linarith⟩
        · rw [if_neg hpre]
          by_cases hpost : (r.getLastD f).endTime ≤ t
          · rw [if_pos hpost]
            constructor <;> linarith
          · rw [if_neg hpost]
            rcases lyricScan_bounds t (f :: r) 0 with ⟨hlo, hhi⟩
            refine ⟨hlo, le_trans hhi ?_⟩
            push_cast
            linarith
    refine ⟨main.1, main.2, ?_, ?_, ?_⟩
    · have : (0:ℚ) < continuousIndex (f :: r) t isPlaying := by linarith [main.1]
      exact this.ne'
    · have : continuousIndex (f :: r) t isPlaying < ((f :: r).length : ℚ) + 2 := by
        linarith [main.2]
      exact this.ne
    · have : continuousIndex (f :: r) t isPlaying < ((f :: r).length : ℚ) + 3 := by
        linarith [main.2]
      exact this.ne

/-- Witness for C9 on a singleton sequence at `t = 5`. -/
theorem claim_C9_witness :
    ([(⟨[], 0, 1⟩ : TimedLyric)] ≠ []) ∧
    1 ≤ continuousIndex [⟨[], 0, 1⟩] 5 true ∧
    continuousIndex [⟨[], 0, 1⟩] 5 true ≤ (([(⟨[], 0, 1⟩ : TimedLyric)].length : ℚ)) + 1 :=
  ⟨by simp,
    (claim_C9_continuousIndex_range_invariant [⟨[], 0, 1⟩] 5 true (by simp)).1,
    (claim_C9_continuousIndex_range_invariant [⟨[], 0, 1⟩] 5 true (by simp)).2.1⟩

/-! ### C10: opacity weight of getLyricStyle -/

/-- C10: the opacity weight equals `max(0, 1 - distance/2)` snapped to `0`
whenever that value is at most `0.05`; it lies in `[0, 1]`, equals `1`
exactly on the focused index, is non-increasing in the distance, and is `0`
for every distance of at least `1.9`. -/
theorem claim_C10_opacity_weight (fontSize focusIndex : ℚ) (index : ℕ) :
    ((getLyricStyle fontSize focusIndex index).opacity =
      if max 0 (1 - |(index : ℚ) - focusIndex| / 2) ≤ 1/20 then 0
      else max 0 (1 - |(index : ℚ) - focusIndex| / 2)) ∧
    (0 ≤ (getLyricStyle fontSize focusIndex index).opacity) ∧
    ((getLyricStyle fontSize focusIndex index).opacity ≤ 1) ∧
    ((getLyricStyle fontSize focusIndex index).opacity = 1 ↔ (index : ℚ) = focusIndex) ∧
    (∀ (fontSize' : ℚ) (index' : ℕ),
      |(index : ℚ) - focusIndex| ≤ |(index' : ℚ) - focusIndex| →
      (getLyricStyle fontSize' focusIndex index').opacity ≤
        (getLyricStyle fontSize focusIndex index).opacity) ∧
    (19/10 ≤ |(index : ℚ) - focusIndex| →
      (getLyricStyle fontSize focusIndex index).opacity = 0) := by
  have hop : ∀ (fs : ℚ) (j : ℕ), (getLyricStyle fs focusIndex j).opacity =
      if max 0 (1 - |(j : ℚ) - focusIndex| / 2) > 1/20
      then max 0 (1 - |(j : ℚ) - focusIndex| / 2) else 0 := by
    intro fs j; rfl
  have habs : (0:ℚ) ≤ |(index : ℚ) - focusIndex| := abs_nonneg _
  have hmax0 : (0:ℚ) ≤ max 0 (1 - |(index : ℚ) - focusIndex| / 2) := le_max_left _ _
  have hmax1 : max 0 (1 - |(index : ℚ) - focusIndex| / 2) ≤ 1 :=
    max_le (by norm_num) (by linarith)
  refine ⟨?_, ?_, ?_, ?_, ?_, ?_⟩
  · rw [hop]
    by_cases h : max 0 (1 - |(index : ℚ) - focusIndex| / 2) > 1/20
    · rw [if_pos h, if_neg (by linarith)]
    · rw [if_neg h, if_pos (by linarith)]
  · rw [hop]
    by_cases h : max 0 (1 - |(index : ℚ) - focusIndex| / 2) > 1/20
    · rw [if_pos h]; exact hmax0
    · rw [if_neg h]
  · rw [hop]
    by_cases h : max 0 (1 - |(index : ℚ) - focusIndex| / 2) > 1/20
    · rw [if_pos h]; exact hmax1
    · rw [if_neg h]; norm_num
  · rw [hop]
    constructor
    · intro h1
      by_cases h : max 0 (1 - |(index : ℚ) - focusIndex| / 2) > 1/20
      · rw [if_pos h] at h1
        have hd : |(index : ℚ) - focusIndex| = 0 := by
          rcases max_choice 0 (1 - |(index : ℚ) - focusIndex| / 2) with hc | hc
          · rw [hc] at h1; exfalso; norm_num at h1
          · rw [hc] at h1; linarith
        have h0 : (index : ℚ) - focusIndex = 0 := abs_eq_zero.mp hd
        linarith
      · rw [if_neg h] at h1; exfalso; norm_num at h1
    · intro h1
      have hd : |(index : ℚ) - focusIndex| = 0 := by
        rw [show (index : ℚ) - focusIndex = 0 by linarith, abs_zero]
      rw [hd]
      norm_num
  · intro fs' j hj
    rw [hop, hop]
    have hm : max 0 (1 - |(j : ℚ) - focusIndex| / 2) ≤
        max 0 (1 - |(index : ℚ) - focusIndex| / 2) :=
      max_le_max (le_refl 0) (by linarith)
    by_cases h2 : max 0 (1 - |(j : ℚ) - focusIndex| / 2) > 1/20
    · rw [if_pos h2, if_pos (by linarith)]
      exact hm
    · rw [if_neg h2]
      by_cases h1 : max 0 (1 - |(index : ℚ) - focusIndex| / 2) > 1/20
      · rw [if_pos h1]; exact le_max_left _ _
      · rw [if_neg h1]
  · intro hdist
    rw [hop]
    have : max 0 (1 - |(index : ℚ) - focusIndex| / 2) ≤ 1/20 :=
      max_le (by norm_num) (by linarith)
    rw [if_neg (by linarith)]

/-- Witness for C10 at focus `2`, comparing slots `2` and `6`. -/
theorem claim_C10_witness :
    (|((2:ℕ) : ℚ) - 2| ≤ |((6:ℕ) : ℚ) - 2|) ∧
    (getLyricStyle 48 2 6).opacity ≤ (getLyricStyle 48 2 2).opacity ∧
    ((19:ℚ)/10 ≤ |((6:ℕ) : ℚ) - 2|) ∧ (getLyricStyle 48 2 6).opacity = 0 :=
  ⟨by norm_num,
    (claim_C10_opacity_weight 48 2 2).2.2.2.2.1 48 6 (by norm_num),
    by norm_num,
    (claim_C10_opacity_weight 48 2 6).2.2.2.2.2 (by norm_num)⟩

/-! ### C8: export progress reporting -/

/-- Counterexample to C8: at `duration = 1/15` (two frames) the stable export
emits the progress sequence `[0, 50, 0, 100]` — the encoding phase starts by
resetting progress to `0` after the rendering phase reached `50`, so the
emitted percentages are not monotonically non-decreasing across phases. -/
theorem claim_C8_counterexample_progress_resets :
    stableExportProgress (1/15) [] = [0, 50, 0, 100] ∧
    ¬ List.Chain' (fun a b : ℚ => a ≤ b) (stableExportProgress (1/15) []) := by
  have htf : totalFrames (1/15) = 2 := by
    have hc : (⌈(1:ℚ)/15 * 30⌉ : ℤ) = 2 := by norm_num
    rw [totalFrames, hc]
    rfl
  have hlist : stableExportProgress (1/15) [] = [0, 50, 0, 100] := by
    simp only [stableExportProgress, renderProgressList, encodeProgressList, htf]
    norm_num [List.range_succ]
  refine ⟨hlist, ?_⟩
  rw [hlist]
  simp only [List.chain'_cons]
  intro h
  have h50 := h.2.1
  norm_num at h50

/-- In the encoding phase, each emitted value is non-negative, at most 100,
and the sequence capped at 100 stays monotone for monotone encoder reports. -/
theorem encode_phase_chain (duration : ℚ) :
    ∀ (rl : List ℕ) (x : ℕ),
      List.Chain' (fun a b : ℕ => a ≤ b) (x :: rl) →
      List.Chain' (fun a b : ℚ => a ≤ b)
        ((min 100 (((x : ℚ) / (totalFrames duration : ℚ)) * 100)) ::
          (encodeProgressList duration rl ++ [100])) := by
  have hT0 : (0:ℚ) ≤ ((totalFrames duration : ℕ) : ℚ) := by positivity
  have hmono : ∀ a b : ℕ, a ≤ b →
      min (100:ℚ) (((a : ℚ) / (totalFrames duration : ℚ)) * 100)
        ≤ min (100:ℚ) (((b : ℚ) / (totalFrames duration : ℚ)) * 100) := by
    intro a b hab
    rcases eq_or_lt_of_le hT0 with hz | hpos
    · rw [← hz]
      simp
    · refine min_le_min (le_refl 100) ?_
      have hc : (a : ℚ) ≤ (b : ℚ) := by exact_mod_cast hab
      have h2 := (div_le_div_iff_of_pos_right hpos).mpr hc
      linarith
  intro rl
  induction rl with
  | nil =>
    intro x _
    simp only [encodeProgressList, List.map_nil, List.nil_append]
    refine List.chain'_cons.mpr ⟨min_le_left _ _, List.chain'_singleton _⟩
  | cons y ys ih =>
    intro x hx
    rcases List.chain'_cons.mp hx with ⟨hxy, hys⟩
    simp only [encodeProgressList, List.map_cons, List.cons_append]
    refine List.chain'_cons.mpr ⟨hmono x y hxy, ?_⟩
    have := ih y hys
    simpa [encodeProgressList] using this

/-- C8 as amended: every emitted percentage lies in `[0, 100]`, and each
phase is separately monotone — the rendering-phase sequence is
non-decreasing, and so is the encoding-phase sequence (from its `0` reset
through the encoder reports, when those are non-decreasing, to the final
`100`); monotonicity does not hold across the phase boundary. -/
theorem claim_C8_progress_phases_amended (duration : ℚ) (reportedFrames : List ℕ)
    (henc : List.Chain' (fun a b : ℕ => a ≤ b) reportedFrames) :
    (∀ p ∈ stableExportProgress duration reportedFrames, 0 ≤ p ∧ p ≤ 100) ∧
    List.Chain' (fun a b : ℚ => a ≤ b) (renderProgressList duration) ∧
    List.Chain' (fun a b : ℚ => a ≤ b)
      (0 :: (encodeProgressList duration reportedFrames ++ [100])) := by
  have hT0 : (0:ℚ) ≤ ((totalFrames duration : ℕ) : ℚ) := by positivity
  have hencval : ∀ cf : ℕ, 0 ≤ min (100:ℚ) (((cf : ℚ) / (totalFrames duration : ℚ)) * 100) ∧
      min (100:ℚ) (((cf : ℚ) / (totalFrames duration : ℚ)) * 100) ≤ 100 := by
    intro cf
    constructor
    · apply le_min (by norm_num)
      positivity
    · exact min_le_left _ _
  refine ⟨?_, ?_, ?_⟩
  · intro p hp
    simp only [stableExportProgress, List.mem_append, List.mem_cons] at hp
    rcases hp with hp | hp | hp
    · simp only [renderProgressList, List.mem_map, List.mem_range] at hp
      rcases hp with ⟨i, hi, rfl⟩
      have hTpos : (0:ℚ) < ((totalFrames duration : ℕ) : ℚ) := by
        exact_mod_cast Nat.pos_of_ne_zero (fun h => by simp [h] at hi)
      constructor
      · positivity
      · have h1 : (i : ℚ) ≤ ((totalFrames duration : ℕ) : ℚ) := by
          exact_mod_cast le_of_lt hi
        have h2 : (i : ℚ) / ((totalFrames duration : ℕ) : ℚ) ≤ 1 := (div_le_one hTpos).mpr h1
        linarith
    · rcases hp with rfl
      norm_num
    · rcases hp with hp | hp | hp
      · simp only [encodeProgressList, List.mem_map] at hp
        rcases hp with ⟨cf, _, rfl⟩
        exact hencval cf
      · rcases hp with rfl
        norm_num
      · simp at hp
  · rw [renderProgressList, List.chain'_map]
    rcases Nat.eq_zero_or_pos (totalFrames duration) with hz | hpos
    · simp [hz]
    · rw [List.chain'_iff_get]
      intro i hi
      simp only [List.length_range] at hi
      simp only [List.get_eq_getElem, List.getElem_range]
      have hTpos : (0:ℚ) < ((totalFrames duration : ℕ) : ℚ) := by exact_mod_cast hpos
      have hdiv : ((i : ℕ) : ℚ) / ((totalFrames duration : ℕ) : ℚ)
          ≤ (((i : ℕ) : ℚ) + 1) / ((totalFrames duration : ℕ) : ℚ) :=
        (div_le_div_iff_of_pos_right hTpos).mpr (by linarith)
      push_cast
      linarith
  · rcases reportedFrames with _ | ⟨cf, rest⟩
    · simp only [encodeProgressList, List.map_nil, List.nil_append]
      refine List.chain'_cons.mpr ⟨by norm_num, List.chain'_singleton _⟩
    · simp only [encodeProgressList, List.map_cons, List.cons_append]
      refine List.chain'_cons.mpr ⟨(hencval cf).1, ?_⟩
      have := encode_phase_chain duration rest cf henc
      simpa [encodeProgressList] using this

/-- Witness for C8's amended statement at `duration = 1/15` with no encoder
reports. -/
theorem claim_C8_witness :
    List.Chain' (fun a b : ℕ => a ≤ b) ([] : List ℕ) ∧
    (∀ p ∈ stableExportProgress (1/15) [], 0 ≤ p ∧ p ≤ 100) :=
  ⟨List.chain'_nil, (claim_C8_progress_phases_amended (1/15) [] List.chain'_nil).1⟩

/-! ### Ordering infrastructure -/

theorem startAt_cons_zero (a : TimedLyric) (l : List TimedLyric) :
    startAt (a :: l) 0 = a.startTime := rfl

theorem startAt_cons_succ (a : TimedLyric) (l : List TimedLyric) (k : ℕ) :
    startAt (a :: l) (k+1) = startAt l k := rfl

theorem endAt_cons_zero (a : TimedLyric) (l : List TimedLyric) :
    endAt (a :: l) 0 = a.endTime := rfl

theorem endAt_cons_succ (a : TimedLyric) (l : List TimedLyric) (k : ℕ) :
    endAt (a :: l) (k+1) = endAt l k := rfl

theorem ordered_cons (a : TimedLyric) (l : List TimedLyric) (h : ordered (a :: l)) :
    ordered l := by
  cases l with
  | nil => rfl
  | cons b bs =>
    simp only [ordered, orderedb, Bool.and_eq_true] at h ⊢
    exact h.2

theorem ordered_head (a : TimedLyric) (l : List TimedLyric) (h : ordered (a :: l)) :
    a.startTime ≤ a.endTime := by
  cases l with
  | nil => simpa [ordered, orderedb] using h
  | cons b bs =>
    simp only [ordered, orderedb, Bool.and_eq_true, decide_eq_true_eq] at h
    exact h.1.1

theorem ordered_head_two (a b : TimedLyric) (l : List TimedLyric)
    (h : ordered (a :: b :: l)) : a.endTime ≤ b.startTime := by
  simp only [ordered, orderedb, Bool.and_eq_true, decide_eq_true_eq] at h
  exact h.1.2

theorem ordered_all (lyrics : List TimedLyric) (hord : ordered lyrics) :
    ∀ j, j < lyrics.length → startAt lyrics j ≤ endAt lyrics j := by
  induction lyrics with
  | nil => intro j hj; exact absurd hj (by simp)
  | cons a l ih =>
    intro j hj
    cases j with
    | zero => exact ordered_head a l hord
    | succ k =>
      rw [startAt_cons_succ, endAt_cons_succ]
      exact ih (ordered_cons a l hord) k (by simpa using hj)

theorem ordered_adj (lyrics : List TimedLyric) (hord : ordered lyrics) :
    ∀ j, j + 1 < lyrics.length → endAt lyrics j ≤ startAt lyrics (j+1) := by
  induction lyrics with
  | nil => intro j hj; exact absurd hj (by simp)
  | cons a l ih =>
    intro j hj
    cases j with
    | zero =>
      cases l with
      | nil => exact absurd hj (by simp)
      | cons b bs => exact ordered_head_two a b bs hord
    | succ k =>
      rw [endAt_cons_succ, startAt_cons_succ]
      exact ih (ordered_cons a l hord) k (by simpa using hj)

theorem ordered_end_le_start (lyrics : List TimedLyric) (hord : ordered lyrics) :
    ∀ k m, k < m → m < lyrics.length → endAt lyrics k ≤ startAt lyrics m := by
  intro k m
  induction m with
  | zero => intro hk _; exact absurd hk (Nat.not_lt_zero k)
  | succ m ihm =>
    intro hk hm
    rcases Nat.lt_succ_iff_lt_or_eq.mp hk with hlt | rfl
    · have h1 := ihm hlt (Nat.lt_of_succ_lt hm)
      have h2 := ordered_all lyrics hord m (Nat.lt_of_succ_lt hm)
      have h3 := ordered_adj lyrics hord m hm
      linarith
    · exact ordered_adj lyrics hord k hm

theorem ordered_start_mono (lyrics : List TimedLyric) (hord : ordered lyrics)
    (k m : ℕ) (hkm : k ≤ m) (hm : m < lyrics.length) :
    startAt lyrics k ≤ startAt lyrics m := by
  rcases lt_or_eq_of_le hkm with hlt | rfl
  · have h1 := ordered_all lyrics hord k (lt_trans hlt hm)
    have h2 := ordered_end_le_start lyrics hord k m hlt hm
    linarith
  · exact le_refl _

theorem ordered_end_mono (lyrics : List TimedLyric) (hord : ordered lyrics)
    (k m : ℕ) (hkm : k ≤ m) (hm : m < lyrics.length) :
    endAt lyrics k ≤ endAt lyrics m := by
  rcases lt_or_eq_of_le hkm with hlt | rfl
  · have h1 := ordered_end_le_start lyrics hord k m hlt hm
    have h2 := ordered_all lyrics hord m hm
    linarith
  · exact le_refl _

theorem startsSorted_cons (a : TimedLyric) (l : List TimedLyric)
    (h : startsSorted (a :: l)) : startsSorted l := by
  cases l with
  | nil => rfl
  | cons b bs =>
    simp only [startsSorted, startsSortedb, Bool.and_eq_true] at h ⊢
    exact h.2

theorem startsSorted_head_two (a b : TimedLyric) (l : List TimedLyric)
    (h : startsSorted (a :: b :: l)) : a.startTime ≤ b.startTime := by
  simp only [startsSorted, startsSortedb, Bool.and_eq_true, decide_eq_true_eq] at h
  exact h.1

theorem startsSorted_adj (lyrics : List TimedLyric) (hs : startsSorted lyrics) :
    ∀ j, j + 1 < lyrics.length → startAt lyrics j ≤ startAt lyrics (j+1) := by
  induction lyrics with
  | nil => intro j hj; exact absurd hj (by simp)
  | cons a l ih =>
    intro j hj
    cases j with
    | zero =>
      cases l with
      | nil => exact absurd hj (by simp)
      | cons b bs => exact startsSorted_head_two a b bs hs
    | succ k =>
      rw [startAt_cons_succ, startAt_cons_succ]
      exact ih (startsSorted_cons a l hs) k (by simpa using hj)

theorem startsSorted_mono (lyrics : List TimedLyric) (hs : startsSorted lyrics) :
    ∀ k m, k ≤ m → m < lyrics.length → startAt lyrics k ≤ startAt lyrics m := by
  intro k m hkm
  induction m with
  | zero =>
    intro _
    have : k = 0 := Nat.le_zero.mp hkm
    rw [this]
  | succ m ihm =>
    intro hm
    rcases Nat.lt_succ_iff_lt_or_eq.mp (Nat.lt_succ_of_le hkm) with hlt | rfl
    · have h1 := ihm (Nat.lt_succ_iff.mp hlt) (Nat.lt_of_succ_lt hm)
      have h2 := startsSorted_adj lyrics hs m hm
      linarith
    · exact le_refl _

theorem ordered_startsSorted (lyrics : List TimedLyric) (hord : ordered lyrics) :
    startsSorted lyrics := by
  induction lyrics with
  | nil => rfl
  | cons a l ih =>
    cases l with
    | nil => rfl
    | cons b bs =>
      simp only [startsSorted, startsSortedb, Bool.and_eq_true, decide_eq_true_eq]
      refine ⟨?_, ih (ordered_cons a (b :: bs) hord)⟩
      have h1 := ordered_head a (b :: bs) hord
      have h2 := ordered_head_two a b bs hord
      linarith

/-- The code's `timedLyrics[timedLyrics.length - 1]` equals the positional
accessor at the last index. -/
theorem getLastD_endTime (f : TimedLyric) (r : List TimedLyric) :
    (r.getLastD f).endTime = endAt (f :: r) r.length := by
  induction r generalizing f with
  | nil => rfl
  | cons b bs ih =>
    rw [List.getLastD_cons, ih b]
    rfl

/-! ### Positioning lemmas for the scan loop -/

theorem lyricScan_cons_active (t : ℚ) (x : TimedLyric) (xs : List TimedLyric) (i : ℕ)
    (h : x.startTime ≤ t ∧ t < x.endTime) :
    lyricScan t (x :: xs) i = (i : ℚ) + 2 := by
  cases xs with
  | nil => rw [lyricScan_cons_nil, if_pos h]
  | cons y ys => rw [lyricScan_cons_cons, if_pos h]

theorem lyricScan_skip (t : ℚ) (x : TimedLyric) (xs : List TimedLyric) (i : ℕ)
    (hact : ¬(x.startTime ≤ t ∧ t < x.endTime))
    (hgap : ∀ y ys, xs = y :: ys → ¬(x.endTime ≤ t ∧ t < y.startTime)) :
    lyricScan t (x :: xs) i = lyricScan t xs (i + 1) := by
  cases xs with
  | nil => rw [lyricScan_cons_nil, if_neg hact, lyricScan_nil]
  | cons y ys => rw [lyricScan_cons_cons, if_neg hact, if_neg (hgap y ys rfl)]

theorem lyricScan_drop (t : ℚ) :
    ∀ (j : ℕ) (l : List TimedLyric) (i : ℕ), j < l.length →
    (∀ k, k < j →
      ¬(startAt l k ≤ t ∧ t < endAt l k) ∧ ¬(endAt l k ≤ t ∧ t < startAt l (k+1))) →
    lyricScan t l i = lyricScan t (l.drop j) (i + j) := by
  intro j
  induction j with
  | zero => intro l i _ _; simp
  | succ j ih =>
    intro l i hj hskip
    cases l with
    | nil => exact absurd hj (by simp)
    | cons x xs =>
      have h0 := hskip 0 (Nat.succ_pos j)
      have hstep : lyricScan t (x :: xs) i = lyricScan t xs (i + 1) := by
        apply lyricScan_skip
        · exact h0.1
        · intro y ys hys
          subst hys
          exact h0.2
      rw [hstep]
      have hlen : j < xs.length := by simpa using hj
      have hsk : ∀ k, k < j →
          ¬(startAt xs k ≤ t ∧ t < endAt xs k) ∧
          ¬(endAt xs k ≤ t ∧ t < startAt xs (k+1)) := by
        intro k hk
        exact hskip (k+1) (by omega)
      rw [ih xs (i+1) hlen hsk]
      have harith : i + 1 + j = i + (j + 1) := by omega
      rw [List.drop_succ_cons, harith]

theorem lyricScan_at_active (t : ℚ) (l : List TimedLyric) (j : ℕ)
    (hj : j < l.length) (hs : startAt l j ≤ t) (he : t < endAt l j)
    (hskip : ∀ k, k < j →
      ¬(startAt l k ≤ t ∧ t < endAt l k) ∧ ¬(endAt l k ≤ t ∧ t < startAt l (k+1))) :
    lyricScan t l 0 = (j : ℚ) + 2 := by
  rw [lyricScan_drop t j l 0 hj hskip, List.drop_eq_getElem_cons hj]
  have hact : (l[j]).startTime ≤ t ∧ t < (l[j]).endTime := by
    rw [startAt, List.getD_eq_getElem l dummyLyric hj] at hs
    rw [endAt, List.getD_eq_getElem l dummyLyric hj] at he
    exact ⟨hs, he⟩
  rw [lyricScan_cons_active t _ _ _ hact]
  norm_num

theorem lyricScan_at_gap (t : ℚ) (l : List TimedLyric) (j : ℕ)
    (hj1 : j + 1 < l.length) (h1 : endAt l j ≤ t) (h2 : t < startAt l (j+1))
    (hskip : ∀ k, k < j →
      ¬(startAt l k ≤ t ∧ t < endAt l k) ∧ ¬(endAt l k ≤ t ∧ t < startAt l (k+1))) :
    lyricScan t l 0 = gapValue l j t := by
  have hj : j < l.length := Nat.lt_of_succ_lt hj1
  rw [lyricScan_drop t j l 0 hj hskip, List.drop_eq_getElem_cons hj]
  have hdrop2 : l.drop (j+1) = l[j+1] :: l.drop (j+2) := List.drop_eq_getElem_cons hj1
  rw [hdrop2, lyricScan_cons_cons]
  have hE : endAt l j = (l[j]).endTime := by
    rw [endAt, List.getD_eq_getElem l dummyLyric hj]
  have hS : startAt l (j+1) = (l[j+1]).startTime := by
    rw [startAt, List.getD_eq_getElem l dummyLyric hj1]
  have hact : ¬((l[j]).startTime ≤ t ∧ t < (l[j]).endTime) := by
    intro hc
    rw [← hE] at hc
    linarith [hc.2, h1]
  rw [if_neg hact, if_pos (by rw [← hE, ← hS]; exact ⟨h1, h2⟩)]
  rw [gapValue, hE, hS]
  norm_num

/-! ### Branch characterisations of the continuous index -/

theorem continuousIndex_eq_scan (f : TimedLyric) (r : List TimedLyric) (t : ℚ) (p : Bool)
    (hnp : ¬(t = 0 ∧ p = false)) (hpre : ¬(t < f.startTime))
    (hpost : ¬((r.getLastD f).endTime ≤ t)) :
    continuousIndex (f :: r) t p = lyricScan t (f :: r) 0 := by
  rw [continuousIndex_cons, if_neg hnp, if_neg hpre, if_neg hpost]

theorem continuousIndex_active (lyrics : List TimedLyric) (t : ℚ) (p : Bool) (j : ℕ)
    (hord : ordered lyrics) (hj : j < lyrics.length)
    (hs : startAt lyrics j ≤ t) (he : t < endAt lyrics j)
    (hnp : ¬(t = 0 ∧ p = false)) :
    continuousIndex lyrics t p = (j : ℚ) + 2 := by
  match lyrics, hj, hord, hs, he with
  | f :: r, hj, hord, hs, he =>
    have hpre : ¬(t < f.startTime) := by
      have h0 := ordered_start_mono (f :: r) hord 0 j (Nat.zero_le j) hj
      rw [startAt_cons_zero] at h0
      intro hc
      linarith
    have hpost : ¬((r.getLastD f).endTime ≤ t) := by
      rw [getLastD_endTime]
      intro hc
      have hjr : j ≤ r.length := Nat.lt_succ_iff.mp (by simpa using hj)
      have hmono := ordered_end_mono (f :: r) hord j r.length hjr (by simp)
      linarith
    rw [continuousIndex_eq_scan f r t p hnp hpre hpost]
    apply lyricScan_at_active t (f :: r) j hj hs he
    intro k hk
    have hchain := ordered_end_le_start (f :: r) hord k j hk hj
    have hsm := ordered_start_mono (f :: r) hord (k+1) j hk hj
    constructor
    · intro hc
      linarith [hc.2]
    · intro hc
      linarith [hc.2]

theorem continuousIndex_in_gap (lyrics : List TimedLyric) (t : ℚ) (p : Bool) (j : ℕ)
    (hord : ordered lyrics) (hj1 : j + 1 < lyrics.length)
    (h1 : endAt lyrics j ≤ t) (h2 : t < startAt lyrics (j+1))
    (hnp : ¬(t = 0 ∧ p = false)) :
    continuousIndex lyrics t p = gapValue lyrics j t := by
  have hj : j < lyrics.length := Nat.lt_of_succ_lt hj1
  match lyrics, hj, hj1, hord, h1, h2 with
  | f :: r, hj, hj1, hord, h1, h2 =>
    have hse := ordered_all (f :: r) hord j hj
    have hpre : ¬(t < f.startTime) := by
      have h0 := ordered_start_mono (f :: r) hord 0 j (Nat.zero_le j) hj
      rw [startAt_cons_zero] at h0
      intro hc
      linarith
    have hpost : ¬((r.getLastD f).endTime ≤ t) := by
      rw [getLastD_endTime]
      intro hc
      have hjr : j + 1 ≤ r.length := Nat.lt_succ_iff.mp (by simpa using hj1)
      have hs1 := ordered_all (f :: r) hord (j+1) hj1
      have hmono := ordered_end_mono (f :: r) hord (j+1) r.length hjr (by simp)
      linarith
    rw [continuousIndex_eq_scan f r t p hnp hpre hpost]
    apply lyricScan_at_gap t (f :: r) j hj1 h1 h2
    intro k hk
    have hem := ordered_end_mono (f :: r) hord k j (le_of_lt hk) hj
    have hsm := ordered_start_mono (f :: r) hord (k+1) j hk hj
    constructor
    · intro hc
      linarith [hc.2]
    · intro hc
      linarith [hc.2]

theorem gapValue_bounds (lyrics : List TimedLyric) (j : ℕ) (t : ℚ)
    (h1 : endAt lyrics j ≤ t) (h2 : t < startAt lyrics (j+1)) :
    (j : ℚ) + 2 ≤ gapValue lyrics j t ∧ gapValue lyrics j t ≤ (j : ℚ) + 3 ∧
    (min (1/2 : ℚ) (startAt lyrics (j+1) - endAt lyrics j) ≤ t - endAt lyrics j →
      gapValue lyrics j t = (j : ℚ) + 3) := by
  have hgappos : (0:ℚ) < startAt lyrics (j+1) - endAt lyrics j := by linarith
  have hw : (0:ℚ) < min (1/2 : ℚ) (startAt lyrics (j+1) - endAt lyrics j) :=
    lt_min (by norm_num) hgappos
  have hx : (0:ℚ) ≤ t - endAt lyrics j := by linarith
  rw [gapValue]
  by_cases hin : t - endAt lyrics j < min (1/2 : ℚ) (startAt lyrics (j+1) - endAt lyrics j)
  · rw [if_pos hin]
    have h01 : (0:ℚ) ≤ (t - endAt lyrics j) /
        min (1/2 : ℚ) (startAt lyrics (j+1) - endAt lyrics j) := div_nonneg hx (le_of_lt hw)
    have h02 : (t - endAt lyrics j) /
        min (1/2 : ℚ) (startAt lyrics (j+1) - endAt lyrics j) < 1 := (div_lt_one hw).mpr hin
    refine ⟨by linarith, by linarith, ?_⟩
    intro hc
    linarith
  · rw [if_neg hin]
    refine ⟨by linarith, by linarith, fun _ => by ring⟩

theorem continuousIndex_pre (f : TimedLyric) (r : List TimedLyric) (t : ℚ) (p : Bool)
    (hnp : ¬(t = 0 ∧ p = false)) (hpre : t < f.startTime) :
    continuousIndex (f :: r) t p =
      if t > f.startTime - 1 then 1 + (t - (f.startTime - 1)) else 1 := by
  rw [continuousIndex_cons, if_neg hnp, if_pos hpre]
  by_cases hfade : t > f.startTime - 1
  · rw [if_pos hfade, if_pos hfade, div_one]
  · rw [if_neg hfade, if_neg hfade]

theorem continuousIndex_post (lyrics : List TimedLyric) (t : ℚ) (p : Bool)
    (hord : ordered lyrics) (hne : lyrics ≠ []) (hnp : ¬(t = 0 ∧ p = false))
    (hpost : endAt lyrics (lyrics.length - 1) ≤ t) :
    continuousIndex lyrics t p = (lyrics.length : ℚ) + 1 := by
  match lyrics, hne, hord, hpost with
  | f :: r, _, hord, hpost =>
    have hlast : (f :: r).length - 1 = r.length := by simp
    rw [hlast] at hpost
    have hpre : ¬(t < f.startTime) := by
      have h1 := ordered_start_mono (f :: r) hord 0 r.length (Nat.zero_le _) (by simp)
      have h2 := ordered_all (f :: r) hord r.length (by simp)
      rw [startAt_cons_zero] at h1
      intro hc
      linarith
    rw [continuousIndex_cons, if_neg hnp, if_neg hpre, if_pos (by rw [getLastD_endTime]; exact hpost)]
    simp only [List.length_cons]
    push_cast
    ring

/-! ### C4: gap interpolation -/

/-- C4: in the gap between line `j`'s `endTime` and line `j+1`'s `startTime`
of an ordered sequence, the continuous index interpolates linearly from slot
`j + 2` toward slot `j + 3` over a window of `min(0.5, gapDuration)`
anchored at the gap's start, holds exactly at slot `j + 3` once the elapsed
gap time reaches the window, and always stays between the two slots. -/
theorem claim_C4_gap_interpolation (lyrics : List TimedLyric) (t : ℚ) (j : ℕ)
    (hord : ordered lyrics) (hj1 : j + 1 < lyrics.length)
    (h1 : endAt lyrics j ≤ t) (h2 : t < startAt lyrics (j+1)) :
    (continuousIndex lyrics t true =
      if t - endAt lyrics j < min (1/2 : ℚ) (startAt lyrics (j+1) - endAt lyrics j)
      then ((j : ℚ) + 2) + (t - endAt lyrics j) /
        min (1/2 : ℚ) (startAt lyrics (j+1) - endAt lyrics j)
      else (j : ℚ) + 3) ∧
    (j : ℚ) + 2 ≤ continuousIndex lyrics t true ∧
    continuousIndex lyrics t true ≤ (j : ℚ) + 3 ∧
    (min (1/2 : ℚ) (startAt lyrics (j+1) - endAt lyrics j) ≤ t - endAt lyrics j →
      continuousIndex lyrics t true = (j : ℚ) + 3) := by
  have hv := continuousIndex_in_gap lyrics t true j hord hj1 h1 h2 (by simp)
  have hb := gapValue_bounds lyrics j t h1 h2
  rw [hv]
  refine ⟨?_, hb.1, hb.2.1, hb.2.2⟩
  rw [gapValue]
  by_cases hin : t - endAt lyrics j < min (1/2 : ℚ) (startAt lyrics (j+1) - endAt lyrics j)
  · rw [if_pos hin, if_pos hin]
  · rw [if_neg hin, if_neg hin]
    ring

/-- Witness for C4 on the gap `[2, 3)` of `[{a,0,2},{b,3,5}]` at `t = 2`. -/
theorem claim_C4_witness :
    ordered [⟨['a'], 0, 2⟩, ⟨['b'], 3, 5⟩] ∧
    (0 + 1 < ([(⟨['a'], 0, 2⟩ : TimedLyric), ⟨['b'], 3, 5⟩]).length) ∧
    endAt [⟨['a'], 0, 2⟩, ⟨['b'], 3, 5⟩] 0 ≤ 2 ∧
    ((2:ℚ) < startAt [⟨['a'], 0, 2⟩, ⟨['b'], 3, 5⟩] 1) ∧
    ((0 : ℚ) + 2 ≤ continuousIndex [⟨['a'], 0, 2⟩, ⟨['b'], 3, 5⟩] 2 true ∧
      continuousIndex [⟨['a'], 0, 2⟩, ⟨['b'], 3, 5⟩] 2 true ≤ (0 : ℚ) + 3) :=
  ⟨by decide, by decide, by decide, by decide,
    (claim_C4_gap_interpolation [⟨['a'], 0, 2⟩, ⟨['b'], 3, 5⟩] 2 0
      (by decide) (by decide) (by decide) (by decide)).2.1,
    (claim_C4_gap_interpolation [⟨['a'], 0, 2⟩, ⟨['b'], 3, 5⟩] 2 0
      (by decide) (by decide) (by decide) (by decide)).2.2.1⟩

/-! ### findIdx? characterisations -/

theorem findIdx?_eq_none_of_all (p : TimedLyric → Bool) (l : List TimedLyric)
    (h : ∀ k, k < l.length → p (l.getD k dummyLyric) = false) :
    l.findIdx? p = none := by
  rw [List.findIdx?_eq_none_iff]
  intro x hx
  rcases List.mem_iff_get.mp hx with ⟨⟨k, hk⟩, rfl⟩
  have hk' := h k hk
  rw [List.getD_eq_getElem _ _ hk] at hk'
  simpa [List.get_eq_getElem] using hk'

theorem findIdx?_eq_some_of_least (p : TimedLyric → Bool) :
    ∀ (l : List TimedLyric) (j : ℕ), j < l.length →
    p (l.getD j dummyLyric) = true →
    (∀ k, k < j → p (l.getD k dummyLyric) = false) →
    l.findIdx? p = some j := by
  intro l
  induction l with
  | nil => intro j hj; exact absurd hj (by simp)
  | cons x xs ih =>
    intro j hj hp hleast
    cases j with
    | zero =>
      have hx : p x = true := hp
      simp [List.findIdx?_cons, hx]
    | succ k =>
      have hx : p x = false := hleast 0 (Nat.succ_pos k)
      have hrec := ih k (by simpa using hj) hp (fun m hm => hleast (m+1) (by omega))
      simp [List.findIdx?_cons, hx, hrec]

/-! ### C5: behaviour past the last line's endTime -/

/-- Counterexample to C5: with lyrics `[{Hello,0,2},{World,2,5}]` at `t = 6`
(past the last `endTime`, playback not ended), part_005's `continuousIndex`
returns `3` — the slot of the last real line (`length + 1`) — and not the
post-roll sentinel slot `length + 2 = 4` the claim requires. -/
theorem claim_C5_counterexample_last_line_hold :
    continuousIndex [⟨['H'], 0, 2⟩, ⟨['W'], 2, 5⟩] 6 true = 3 ∧
    ((3:ℚ) ≠ (([(⟨['H'], 0, 2⟩ : TimedLyric), ⟨['W'], 2, 5⟩]).length : ℚ) + 2) := by
  constructor
  · rw [continuousIndex_cons]
    norm_num [List.getLastD]
  · norm_num

/-- C5 as amended: for an ordered non-empty sequence, at or past the last
line's `endTime` (outside the pre-playback state), `currentIndex` of
`VideoPlayer.tsx` returns the post-roll slot `length + 2`, while
`continuousIndex` of part_005 instead settles on the last real line's slot
`length + 1`. -/
theorem claim_C5_after_last_end_amended (lyrics : List TimedLyric) (t : ℚ) (p : Bool)
    (hord : ordered lyrics) (hne : lyrics ≠ []) (hnp : ¬(t = 0 ∧ p = false))
    (hpost : endAt lyrics (lyrics.length - 1) ≤ t) :
    currentIndex lyrics t p = lyrics.length + 2 ∧
    continuousIndex lyrics t p = (lyrics.length : ℚ) + 1 := by
  match lyrics, hord, hne, hpost with
  | f :: r, hord, _, hpost =>
    refine ⟨?_, continuousIndex_post (f :: r) t p hord (by simp) hnp hpost⟩
    have hpost' : (r.getLastD f).endTime ≤ t := by
      rw [getLastD_endTime]
      simpa using hpost
    have hnone : (f :: r).findIdx?
        (fun lyric => decide (lyric.startTime ≤ t ∧ t < lyric.endTime)) = none := by
      apply findIdx?_eq_none_of_all
      intro k hk
      have hek := ordered_end_mono (f :: r) hord k ((f :: r).length - 1)
        (by omega) (by simp)
      simp only [decide_eq_false_iff_not]
      intro hc
      have hc2 : t < endAt (f :: r) k := hc.2
      linarith
    simp only [currentIndex, hnone, if_neg hnp]
    rw [if_pos hpost']

/-- Witness for C5's amended statement on `[{Hello,0,2},{World,2,5}]` at
`t = 6`. -/
theorem claim_C5_witness :
    ordered [⟨['H'], 0, 2⟩, ⟨['W'], 2, 5⟩] ∧
    (¬((6:ℚ) = 0 ∧ true = false)) ∧
    endAt [⟨['H'], 0, 2⟩, ⟨['W'], 2, 5⟩]
      (([(⟨['H'], 0, 2⟩ : TimedLyric), ⟨['W'], 2, 5⟩]).length - 1) ≤ 6 ∧
    currentIndex [⟨['H'], 0, 2⟩, ⟨['W'], 2, 5⟩] 6 true =
      ([(⟨['H'], 0, 2⟩ : TimedLyric), ⟨['W'], 2, 5⟩]).length + 2 :=
  ⟨by decide, by decide, by decide,
    (claim_C5_after_last_end_amended [⟨['H'], 0, 2⟩, ⟨['W'], 2, 5⟩] 6 true
      (by decide) (by decide) (by decide) (by decide)).1⟩

/-! ### C6: half-open windows and first-match selection -/

theorem takeWhile_start_length :
    ∀ (l l' : List TimedLyric),
    l.map TimedLyric.startTime = l'.map TimedLyric.startTime →
    ∀ t : ℚ, (l.takeWhile (fun x => decide (x.startTime ≤ t))).length
      = (l'.takeWhile (fun x => decide (x.startTime ≤ t))).length := by
  intro l
  induction l with
  | nil =>
    intro l' h t
    cases l' with
    | nil => rfl
    | cons b bs => simp at h
  | cons a as ih =>
    intro l' h t
    cases l' with
    | nil => simp at h
    | cons b bs =>
      simp only [List.map_cons, List.cons.injEq] at h
      rw [List.takeWhile_cons, List.takeWhile_cons, h.1]
      by_cases hb : b.startTime ≤ t
      · simp [hb, ih bs h.2 t]
      · simp [hb]

theorem scrollPositionIndex_ignores_end (l l' : List TimedLyric)
    (h : l.map TimedLyric.startTime = l'.map TimedLyric.startTime) (t : ℚ) (e : Bool) :
    scrollPositionIndex l t e = scrollPositionIndex l' t e := by
  have hlen : l.length = l'.length := by
    have hc := congrArg List.length h
    simpa using hc
  simp only [scrollPositionIndex, hlen, takeWhile_start_length l l' h t]

/-- Counterexample to C6: with overlapping input `[{a,0,10},{b,1,2}]` at
`t = 3`, line `0` is the (unique, hence first) line whose half-open window
contains `t`, yet part_005's `continuousIndex` returns `3` — the slot of
line `1` — because its past-the-last-endTime branch fires before the scan;
the claimed first-match slot would be `0 + 2 = 2`. -/
theorem claim_C6_counterexample_overlap :
    (startAt [⟨['a'], 0, 10⟩, ⟨['b'], 1, 2⟩] 0 ≤ 3 ∧
      (3:ℚ) < endAt [⟨['a'], 0, 10⟩, ⟨['b'], 1, 2⟩] 0) ∧
    continuousIndex [⟨['a'], 0, 10⟩, ⟨['b'], 1, 2⟩] 3 true = 3 ∧
    ((3:ℚ) ≠ ((0:ℕ) : ℚ) + 2) := by
  refine ⟨by decide, ?_, by norm_num⟩
  rw [continuousIndex_cons]
  norm_num [List.getLastD]

/-- C6 as amended: a line is active on its half-open window
`[startTime, endTime)` with deterministic first-match selection for the
`findIndex`-based resolvers (`currentIndex` of VideoPlayer.tsx and
`activeLyricIndex` of part_008) whenever playback has started; part_005's
`continuousIndex` agrees only when additionally the sequence is sorted by
`startTime` and `t` lies before the last line's `endTime` (outside that
range its pre/post-roll branches override the window check); and
`scrollPositionIndex` of part_008 ignores `endTime` entirely, so the
half-open-window claim does not apply to it. -/
theorem claim_C6_first_match_amended (lyrics : List TimedLyric) (t : ℚ) (p : Bool) (j : ℕ)
    (hj : j < lyrics.length) (hs : startAt lyrics j ≤ t) (he : t < endAt lyrics j)
    (hleast : ∀ k, k < j → ¬(startAt lyrics k ≤ t ∧ t < endAt lyrics k))
    (hnp : ¬(t = 0 ∧ p = false)) :
    currentIndex lyrics t p = j + 2 ∧
    activeLyricIndex lyrics t = (j : ℤ) ∧
    (startsSorted lyrics → t < endAt lyrics (lyrics.length - 1) →
      continuousIndex lyrics t p = (j : ℚ) + 2) ∧
    (∀ lyrics' : List TimedLyric,
      lyrics.map TimedLyric.startTime = lyrics'.map TimedLyric.startTime →
      ∀ e : Bool, scrollPositionIndex lyrics t e = scrollPositionIndex lyrics' t e) := by
  have hfound : lyrics.findIdx?
      (fun lyric => decide (lyric.startTime ≤ t ∧ t < lyric.endTime)) = some j := by
    apply findIdx?_eq_some_of_least _ lyrics j hj
    · simp only [decide_eq_true_eq]
      exact ⟨hs, he⟩
    · intro k hk
      simp only [decide_eq_false_iff_not]
      exact hleast k hk
  refine ⟨?_, ?_, ?_, ?_⟩
  · simp only [currentIndex, hfound, if_neg hnp]
  · simp only [activeLyricIndex, hfound]
  · intro hsort hlt
    obtain ⟨f, r, rfl⟩ : ∃ f r, lyrics = f :: r := by
      cases lyrics with
      | nil => exact absurd hj (by simp)
      | cons f r => exact ⟨f, r, rfl⟩
    have hpre : ¬(t < f.startTime) := by
      have h0 := startsSorted_mono (f :: r) hsort 0 j (Nat.zero_le j) hj
      rw [startAt_cons_zero] at h0
      intro hc
      linarith
    have hpost : ¬((r.getLastD f).endTime ≤ t) := by
      rw [getLastD_endTime]
      intro hc
      have hlen : (f :: r).length - 1 = r.length := by simp
      rw [hlen] at hlt
      linarith
    rw [continuousIndex_eq_scan f r t p hnp hpre hpost]
    apply lyricScan_at_active t (f :: r) j hj hs he
    intro k hk
    refine ⟨hleast k hk, ?_⟩
    intro hc
    have hsm := startsSorted_mono (f :: r) hsort (k+1) j hk hj
    linarith [hc.2]
  · intro lyrics' hmap e
    exact scrollPositionIndex_ignores_end lyrics lyrics' hmap t e

/-- Witness for C6's amended statement on `[{a,0,10},{b,1,5}]` at `t = 2`,
first match at index `0`. -/
theorem claim_C6_witness :
    (0 < ([(⟨['a'], 0, 10⟩ : TimedLyric), ⟨['b'], 1, 5⟩]).length) ∧
    startAt [⟨['a'], 0, 10⟩, ⟨['b'], 1, 5⟩] 0 ≤ 2 ∧
    ((2:ℚ) < endAt [⟨['a'], 0, 10⟩, ⟨['b'], 1, 5⟩] 0) ∧
    (¬((2:ℚ) = 0 ∧ true = false)) ∧
    currentIndex [⟨['a'], 0, 10⟩, ⟨['b'], 1, 5⟩] 2 true = 0 + 2 :=
  ⟨by decide, by decide, by decide, by decide,
    (claim_C6_first_match_amended [⟨['a'], 0, 10⟩, ⟨['b'], 1, 5⟩] 2 true 0
      (by decide) (by decide) (by decide)
      (fun k hk => absurd hk (Nat.not_lt_zero k)) (by decide)).1⟩

/-! ### C7: monotonicity of the continuous index -/

theorem locate_region (lyrics : List TimedLyric) (hord : ordered lyrics)
    (hne : lyrics ≠ []) (t : ℚ) (h1 : startAt lyrics 0 ≤ t)
    (h2 : t < endAt lyrics (lyrics.length - 1)) :
    ∃ j, j < lyrics.length ∧
      ((startAt lyrics j ≤ t ∧ t < endAt lyrics j) ∨
       (j + 1 < lyrics.length ∧ endAt lyrics j ≤ t ∧ t < startAt lyrics (j+1))) := by
  have hlen : 0 < lyrics.length := List.length_pos.mpr hne
  have hPj : startAt lyrics (Nat.findGreatest (fun k => startAt lyrics k ≤ t)
      (lyrics.length - 1)) ≤ t :=
    Nat.findGreatest_spec (P := fun k => startAt lyrics k ≤ t)
      (Nat.zero_le (lyrics.length - 1)) h1
  have hjle : Nat.findGreatest (fun k => startAt lyrics k ≤ t) (lyrics.length - 1)
      ≤ lyrics.length - 1 := Nat.findGreatest_le (lyrics.length - 1)
  have hjn : Nat.findGreatest (fun k => startAt lyrics k ≤ t) (lyrics.length - 1)
      < lyrics.length := by omega
  by_cases hje : t < endAt lyrics (Nat.findGreatest (fun k => startAt lyrics k ≤ t)
      (lyrics.length - 1))
  · exact ⟨_, hjn, Or.inl ⟨hPj, hje⟩⟩
  · push_neg at hje
    have hjlt : Nat.findGreatest (fun k => startAt lyrics k ≤ t) (lyrics.length - 1)
        < lyrics.length - 1 := by
      rcases Nat.lt_or_ge (Nat.findGreatest (fun k => startAt lyrics k ≤ t)
          (lyrics.length - 1)) (lyrics.length - 1) with h | h
      · exact h
      · exfalso
        have heq : Nat.findGreatest (fun k => startAt lyrics k ≤ t) (lyrics.length - 1)
            = lyrics.length - 1 := le_antisymm hjle h
        rw [heq] at hje
        linarith
    have hnotP : ¬ (startAt lyrics (Nat.findGreatest (fun k => startAt lyrics k ≤ t)
        (lyrics.length - 1) + 1) ≤ t) :=
      Nat.findGreatest_is_greatest (P := fun k => startAt lyrics k ≤ t)
        (n := lyrics.length - 1) (by omega) (by omega)
    exact ⟨_, hjn, Or.inr ⟨by omega, hje, lt_of_not_le hnotP⟩⟩

theorem gapValue_mono (lyrics : List TimedLyric) (j : ℕ) (t1 t2 : ℚ)
    (h12 : t1 ≤ t2) (ha : endAt lyrics j ≤ t1) (hb : t1 < startAt lyrics (j+1)) :
    gapValue lyrics j t1 ≤ gapValue lyrics j t2 := by
  have hgappos : (0:ℚ) < startAt lyrics (j+1) - endAt lyrics j := by linarith
  have hw : (0:ℚ) < min (1/2:ℚ) (startAt lyrics (j+1) - endAt lyrics j) :=
    lt_min (by norm_num) hgappos
  rw [gapValue, gapValue]
  by_cases h2' : t2 - endAt lyrics j < min (1/2:ℚ) (startAt lyrics (j+1) - endAt lyrics j)
  · have h1' : t1 - endAt lyrics j < min (1/2:ℚ) (startAt lyrics (j+1) - endAt lyrics j) :=
      lt_of_le_of_lt (by linarith) h2'
    rw [if_pos h1', if_pos h2']
    have hdiv := (div_le_div_iff_of_pos_right hw).mpr
      (show t1 - endAt lyrics j ≤ t2 - endAt lyrics j by linarith)
    linarith
  · rw [if_neg h2']
    by_cases h1' : t1 - endAt lyrics j < min (1/2:ℚ) (startAt lyrics (j+1) - endAt lyrics j)
    · rw [if_pos h1']
      have hq : (t1 - endAt lyrics j) /
          min (1/2:ℚ) (startAt lyrics (j+1) - endAt lyrics j) < 1 := (div_lt_one hw).mpr h1'
      linarith
    · rw [if_neg h1']

theorem continuousIndex_ge_two (lyrics : List TimedLyric) (hord : ordered lyrics)
    (hne : lyrics ≠ []) (t : ℚ) (hs0 : startAt lyrics 0 ≤ t) (p : Bool)
    (hnp : ¬(t = 0 ∧ p = false)) :
    2 ≤ continuousIndex lyrics t p := by
  by_cases hpost : endAt lyrics (lyrics.length - 1) ≤ t
  · rw [continuousIndex_post lyrics t p hord hne hnp hpost]
    have hlen : (1:ℚ) ≤ (lyrics.length : ℚ) := by
      exact_mod_cast List.length_pos.mpr hne
    linarith
  · push_neg at hpost
    rcases locate_region lyrics hord hne t hs0 hpost with ⟨j, hj, hcase | hcase⟩
    · rw [continuousIndex_active lyrics t p j hord hj hcase.1 hcase.2 hnp]
      linarith [Nat.cast_nonneg (α := ℚ) j]
    · rw [continuousIndex_in_gap lyrics t p j hord hcase.1 hcase.2.1 hcase.2.2 hnp]
      have hlb := (gapValue_bounds lyrics j t hcase.2.1 hcase.2.2).1
      linarith [Nat.cast_nonneg (α := ℚ) j]

/-- C7: for a fixed ordered non-empty lyric sequence with playback in
progress, the continuous index is a non-decreasing function of the playback
time. -/
theorem claim_C7_continuousIndex_monotone (lyrics : List TimedLyric)
    (hord : ordered lyrics) (hne : lyrics ≠ []) (t1 t2 : ℚ) (h12 : t1 ≤ t2) :
    continuousIndex lyrics t1 true ≤ continuousIndex lyrics t2 true := by
  have hnp : ∀ t : ℚ, ¬(t = 0 ∧ true = false) := fun t hc => by simp at hc
  obtain ⟨f, r, rfl⟩ : ∃ f r, lyrics = f :: r := by
    cases lyrics with
    | nil => exact absurd rfl hne
    | cons f r => exact ⟨f, r, rfl⟩
  rcases lt_or_le t1 (startAt (f :: r) 0) with hpre1 | hs01
  · rcases lt_or_le t2 (startAt (f :: r) 0) with hpre2 | hs02
    · rw [continuousIndex_pre f r t1 true (hnp t1) hpre1,
          continuousIndex_pre f r t2 true (hnp t2) hpre2]
      by_cases hf1 : t1 > f.startTime - 1
      · have hf2 : t2 > f.startTime - 1 := by linarith
        rw [if_pos hf1, if_pos hf2]
        linarith
      · rw [if_neg hf1]
        by_cases hf2 : t2 > f.startTime - 1
        · rw [if_pos hf2]
          linarith
        · rw [if_neg hf2]
    · have hv2 := continuousIndex_ge_two (f :: r) hord (by simp) t2 hs02 true (hnp t2)
      rw [continuousIndex_pre f r t1 true (hnp t1) hpre1]
      by_cases hf1 : t1 > f.startTime - 1
      · rw [if_pos hf1]
        have hlt : t1 < f.startTime := hpre1
        linarith
      · rw [if_neg hf1]
        linarith
  · have hs02 : startAt (f :: r) 0 ≤ t2 := le_trans hs01 h12
    rcases le_or_lt (endAt (f :: r) ((f :: r).length - 1)) t1 with hpost1 | hmid1
    · have hpost2 : endAt (f :: r) ((f :: r).length - 1) ≤ t2 := le_trans hpost1 h12
      rw [continuousIndex_post _ t1 true hord (by simp) (hnp t1) hpost1,
          continuousIndex_post _ t2 true hord (by simp) (hnp t2) hpost2]
    · rcases locate_region (f :: r) hord (by simp) t1 hs01 hmid1 with ⟨j1, hj1, hc1⟩
      rcases le_or_lt (endAt (f :: r) ((f :: r).length - 1)) t2 with hpost2 | hmid2
      · rw [continuousIndex_post _ t2 true hord (by simp) (hnp t2) hpost2]
        rcases hc1 with ⟨ha1, hb1⟩ | ⟨hjj1, ha1, hb1⟩
        · rw [continuousIndex_active _ t1 true j1 hord hj1 ha1 hb1 (hnp t1)]
          have hcast : (j1:ℚ) + 1 ≤ ((f :: r).length : ℚ) := by
            exact_mod_cast Nat.succ_le_of_lt hj1
          linarith
        · rw [continuousIndex_in_gap _ t1 true j1 hord hjj1 ha1 hb1 (hnp t1)]
          have hub := (gapValue_bounds _ j1 t1 ha1 hb1).2.1
          have hcast : (j1:ℚ) + 2 ≤ ((f :: r).length : ℚ) := by
            exact_mod_cast Nat.succ_le_of_lt hjj1
          linarith
      · rcases locate_region (f :: r) hord (by simp) t2 hs02 hmid2 with ⟨j2, hj2, hc2⟩
        rcases hc1 with ⟨ha1, hb1⟩ | ⟨hjj1, ha1, hb1⟩
        · rw [continuousIndex_active _ t1 true j1 hord hj1 ha1 hb1 (hnp t1)]
          rcases hc2 with ⟨ha2, hb2⟩ | ⟨hjj2, ha2, hb2⟩
          · rw [continuousIndex_active _ t2 true j2 hord hj2 ha2 hb2 (hnp t2)]
            have hle : j1 ≤ j2 := by
              by_contra hlt
              push_neg at hlt
              have hchain := ordered_end_le_start _ hord j2 j1 hlt hj1
              linarith
            have hcast : (j1:ℚ) ≤ (j2:ℚ) := by exact_mod_cast hle
            linarith
          · rw [continuousIndex_in_gap _ t2 true j2 hord hjj2 ha2 hb2 (hnp t2)]
            have hlb2 := (gapValue_bounds _ j2 t2 ha2 hb2).1
            have hle : j1 ≤ j2 := by
              by_contra hlt
              push_neg at hlt
              have hsm := ordered_start_mono _ hord (j2+1) j1 hlt hj1
              linarith
            have hcast : (j1:ℚ) ≤ (j2:ℚ) := by exact_mod_cast hle
            linarith
        · rw [continuousIndex_in_gap _ t1 true j1 hord hjj1 ha1 hb1 (hnp t1)]
          have hub1 := (gapValue_bounds _ j1 t1 ha1 hb1).2.1
          rcases hc2 with ⟨ha2, hb2⟩ | ⟨hjj2, ha2, hb2⟩
          · rw [continuousIndex_active _ t2 true j2 hord hj2 ha2 hb2 (hnp t2)]
            have hlt : j1 < j2 := by
              by_contra hge
              push_neg at hge
              have hem := ordered_end_mono _ hord j2 j1 hge hj1
              linarith
            have hcast : (j1:ℚ) + 1 ≤ (j2:ℚ) := by exact_mod_cast Nat.succ_le_of_lt hlt
            linarith
          · rcases Nat.lt_or_ge j1 j2 with hlt | hge
            · rw [continuousIndex_in_gap _ t2 true j2 hord hjj2 ha2 hb2 (hnp t2)]
              have hlb2 := (gapValue_bounds _ j2 t2 ha2 hb2).1
              have hcast : (j1:ℚ) + 1 ≤ (j2:ℚ) := by exact_mod_cast Nat.succ_le_of_lt hlt
              linarith
            · have heq : j1 = j2 := by
                rcases Nat.lt_or_ge j2 j1 with hlt2 | hge2
                · exfalso
                  have hsm := ordered_start_mono _ hord (j2+1) j1 hlt2 hj1
                  have hse := ordered_all _ hord j1 hj1
                  linarith
                · omega
              subst heq
              rw [continuousIndex_in_gap _ t2 true j1 hord hjj2 ha2 hb2 (hnp t2)]
              exact gapValue_mono _ j1 t1 t2 h12 ha1 hb1

/-- Witness for C7 on `[{a,0,2},{b,3,5}]` with `t1 = 1 ≤ t2 = 4`. -/
theorem claim_C7_witness :
    ordered [⟨['a'], 0, 2⟩, ⟨['b'], 3, 5⟩] ∧
    ([(⟨['a'], 0, 2⟩ : TimedLyric), ⟨['b'], 3, 5⟩] ≠ []) ∧
    ((1:ℚ) ≤ 4) ∧
    continuousIndex [⟨['a'], 0, 2⟩, ⟨['b'], 3, 5⟩] 1 true ≤
      continuousIndex [⟨['a'], 0, 2⟩, ⟨['b'], 3, 5⟩] 4 true :=
  ⟨by decide, by decide, by decide,
    claim_C7_continuousIndex_monotone [⟨['a'], 0, 2⟩, ⟨['b'], 3, 5⟩]
      (by decide) (by decide) 1 4 (by decide)⟩

/-! ### C2: SRT time formatting -/

theorem int_floor_div_nat (x : ℚ) (hx : 0 ≤ x) (n : ℕ) :
    ⌊x / (n : ℚ)⌋ = ⌊x⌋ / (n : ℤ) := by
  have hnn : (0:ℚ) ≤ (n:ℚ) := by positivity
  have ha : (0:ℚ) ≤ x / (n:ℚ) := div_nonneg hx hnn
  rw [← Int.natCast_floor_eq_floor ha, ← Int.natCast_floor_eq_floor hx, Nat.floor_div_nat]
  exact Int.ofNat_div _ _

theorem jsFmod_spec (x : ℚ) (hx : 0 ≤ x) (b : ℚ) (hb : 0 < b) :
    jsFmod x b = x - b * ⌊x / b⌋ ∧ 0 ≤ jsFmod x b ∧ jsFmod x b < b := by
  have hq : (0:ℚ) ≤ x / b := div_nonneg hx (le_of_lt hb)
  have he : jsFmod x b = x - b * ⌊x / b⌋ := by
    rw [jsFmod, ratTrunc, if_pos hq]
  have hfl := Int.floor_le (x / b)
  have hfu := Int.lt_floor_add_one (x / b)
  refine ⟨he, ?_, ?_⟩
  · rw [he]
    have h1 : b * (⌊x / b⌋ : ℚ) ≤ x := (le_div_iff₀' hb).mp hfl
    linarith
  · rw [he]
    have h1 : x < ((⌊x / b⌋ : ℚ) + 1) * b := (div_lt_iff₀ hb).mp hfu
    have h2 : ((⌊x / b⌋ : ℚ) + 1) * b = b * ⌊x / b⌋ + b := by ring
    linarith

/-- Characterisation of `formatSrtTime` on non-negative times via global
floor and remainder operations: the hour, minute and second fields are the
zero-padded floor components of `t`, and the three millisecond digits are
`⌊1000·t + 1/2⌋ mod 1000` — the fractional-second component rounded to the
nearest thousandth (ties upward, per `toFixed(3)`), with the carry digit
dropped by `substring(2)` — not the truncation the specification describes. -/
theorem formatSrtTime_components (t : ℚ) (ht : 0 ≤ t) :
    formatSrtTime t =
      padStart2 (natDigits (⌊t / 3600⌋).toNat) ++ ':' ::
        (padStart2 (natDigits ((⌊t / 60⌋ % 60).toNat)) ++ ':' ::
          (padStart2 (natDigits ((⌊t⌋ % 60).toNat)) ++ ',' ::
            padStart3 (natDigits ((⌊1000 * t + 1/2⌋ % 1000).toNat)))) := by
  have h3600 := jsFmod_spec t ht 3600 (by norm_num)
  have h60 := jsFmod_spec t ht 60 (by norm_num)
  have h1 := jsFmod_spec t ht 1 (by norm_num)
  have hq60 : (0:ℚ) ≤ t / 60 := by positivity
  have hD : ⌊jsFmod t 3600 / 60⌋ = ⌊t / 60⌋ % 60 := by
    rw [h3600.1]
    have e1 : (t - 3600 * (⌊t / 3600⌋ : ℚ)) / 60
        = t / 60 - ((60 * ⌊t / 3600⌋ : ℤ) : ℚ) := by
      push_cast
      ring
    rw [e1, Int.floor_sub_int]
    have e2 : ⌊t / 3600⌋ = ⌊t / 60⌋ / 60 := by
      have e3 : t / 3600 = (t / 60) / ((60 : ℕ) : ℚ) := by
        push_cast
        ring
      rw [e3, int_floor_div_nat (t / 60) hq60 60]
      norm_num
    rw [e2, Int.emod_def]
  have hE : ⌊jsFmod t 60⌋ = ⌊t⌋ % 60 := by
    rw [h60.1]
    have e1 : t - 60 * (⌊t / 60⌋ : ℚ) = t - ((60 * ⌊t / 60⌋ : ℤ) : ℚ) := by
      push_cast
      ring
    rw [e1, Int.floor_sub_int]
    have e2 : ⌊t / 60⌋ = ⌊t⌋ / 60 := by
      have e3 : t / 60 = t / ((60 : ℕ) : ℚ) := by norm_num
      rw [e3, int_floor_div_nat t ht 60]
      norm_num
    rw [e2, Int.emod_def]
  have hF : (⌊jsFmod t 1 * 1000 + 1/2⌋).toNat % 1000 = (⌊1000 * t + 1/2⌋ % 1000).toNat := by
    have hj1 : jsFmod t 1 = t - ⌊t⌋ := by
      have := h1.1
      rw [div_one] at this
      linarith
    have e1 : jsFmod t 1 * 1000 + 1/2 = (1000 * t + 1/2) - ((1000 * ⌊t⌋ : ℤ) : ℚ) := by
      rw [hj1]
      push_cast
      ring
    have e2 : ⌊jsFmod t 1 * 1000 + 1/2⌋ = ⌊1000 * t + 1/2⌋ - 1000 * ⌊t⌋ := by
      rw [e1, Int.floor_sub_int]
    have hA : 0 ≤ ⌊jsFmod t 1 * 1000 + 1/2⌋ := by
      apply Int.floor_nonneg.mpr
      have := h1.2.1
      linarith
    omega
  have hh : intToStr ⌊t / 3600⌋ = natDigits (⌊t / 3600⌋).toNat := by
    rw [intToStr, if_neg (not_lt.mpr (Int.floor_nonneg.mpr (by positivity)))]
  have hm : intToStr (⌊t / 60⌋ % 60) = natDigits ((⌊t / 60⌋ % 60).toNat) := by
    rw [intToStr, if_neg (not_lt.mpr (Int.emod_nonneg _ (by norm_num)))]
  have hs : intToStr (⌊t⌋ % 60) = natDigits ((⌊t⌋ % 60).toNat) := by
    rw [intToStr, if_neg (not_lt.mpr (Int.emod_nonneg _ (by norm_num)))]
  simp only [formatSrtTime, toFixed3sub2, hD, hE, hF, hh, hm, hs]

/-- C2 as amended: for every non-negative `t`, `formatSrtTime` renders the
zero-padded `HH:MM:SS,mmm` fields where hours, minutes and seconds are the
floor components of `t`, but the millisecond digits are
`⌊1000·t + 1/2⌋ mod 1000` — rounded to the nearest thousandth (ties upward,
via `toFixed(3)`) with the carry into the seconds field dropped — rather
than truncated as the specification states. -/
theorem claim_C2_formatSrtTime_rounds (t : ℚ) (ht : 0 ≤ t) :
    formatSrtTime t =
      padStart2 (natDigits (⌊t / 3600⌋).toNat) ++ ':' ::
        (padStart2 (natDigits ((⌊t / 60⌋ % 60).toNat)) ++ ':' ::
          (padStart2 (natDigits ((⌊t⌋ % 60).toNat)) ++ ',' ::
            padStart3 (natDigits ((⌊1000 * t + 1/2⌋ % 1000).toNat)))) :=
  formatSrtTime_components t ht

/-- Witness for C2's amended statement at `t = 1`. -/
theorem claim_C2_witness :
    (0 ≤ (1:ℚ)) ∧
    formatSrtTime 1 =
      padStart2 (natDigits (⌊(1:ℚ) / 3600⌋).toNat) ++ ':' ::
        (padStart2 (natDigits ((⌊(1:ℚ) / 60⌋ % 60).toNat)) ++ ':' ::
          (padStart2 (natDigits ((⌊(1:ℚ)⌋ % 60).toNat)) ++ ',' ::
            padStart3 (natDigits ((⌊1000 * (1:ℚ) + 1/2⌋ % 1000).toNat)))) :=
  ⟨by norm_num, claim_C2_formatSrtTime_rounds 1 (by norm_num)⟩

/-- Counterexample to C2: at `t = 1/1024` seconds the fractional component
is `0.0009765625`; truncation would render milliseconds `000`, but the code
(`toFixed(3)`) rounds and renders `001`. -/
theorem claim_C2_counterexample_rounded_ms :
    formatSrtTime (1/1024) ≠ formatSrtTimeTruncSpec (1/1024) ∧
    formatSrtTime (1/1024) =
      ['0','0',':','0','0',':','0','0',',','0','0','1'] ∧
    formatSrtTimeTruncSpec (1/1024) =
      ['0','0',':','0','0',':','0','0',',','0','0','0'] := by
  have c1 : ⌊(1:ℚ)/1024 / 3600⌋ = 0 := by
    rw [Int.floor_eq_iff]
    norm_num
  have c2 : ⌊(1:ℚ)/1024 / 60⌋ = 0 := by
    rw [Int.floor_eq_iff]
    norm_num
  have c3 : ⌊(1:ℚ)/1024⌋ = 0 := by
    rw [Int.floor_eq_iff]
    norm_num
  have c4 : ⌊1000 * ((1:ℚ)/1024) + 1/2⌋ = 1 := by
    rw [Int.floor_eq_iff]
    norm_num
  have c5 : ⌊(1:ℚ)/1024 * 1000⌋ = 0 := by
    rw [Int.floor_eq_iff]
    norm_num
  have e1 : formatSrtTime (1/1024) = ['0','0',':','0','0',':','0','0',',','0','0','1'] := by
    rw [formatSrtTime_components (1/1024) (by norm_num), c1, c2, c3, c4]
    rfl
  have j1 : jsFmod ((1:ℚ)/1024) 3600 = 1/1024 := by
    rw [jsFmod, ratTrunc, if_pos (by positivity), c1]
    norm_num
  have j2 : jsFmod ((1:ℚ)/1024) 60 = 1/1024 := by
    rw [jsFmod, ratTrunc, if_pos (by positivity), c2]
    norm_num
  have j3 : jsFmod ((1:ℚ)/1024) 1 = 1/1024 := by
    rw [jsFmod, ratTrunc, div_one, if_pos (by positivity), c3]
    norm_num
  have e2 : formatSrtTimeTruncSpec (1/1024) =
      ['0','0',':','0','0',':','0','0',',','0','0','0'] := by
    simp only [formatSrtTimeTruncSpec, j1, j2, j3, c1, c2, c3, c5]
    rfl
  refine ⟨?_, e1, e2⟩
  rw [e1, e2]
  decide

/-! ### C3: split machinery -/

theorem jsSplitAux_nil (sep : List Char) (fuel : ℕ) : jsSplitAux sep fuel [] = [[]] := by
  cases fuel <;> rfl

theorem jsSplitAux_succ (sep : List Char) (f : ℕ) (c : Char) (rest : List Char) :
    jsSplitAux sep (f+1) (c :: rest) =
      if sep ≠ [] ∧ sep.isPrefixOf (c :: rest) then
        [] :: jsSplitAux sep f (List.drop (sep.length - 1) rest)
      else
        match jsSplitAux sep f rest with
        | [] => [[c]]
        | hd :: tl => (c :: hd) :: tl := rfl

theorem jsSplitAux_fuel (sep : List Char) : ∀ (fuel₁ : ℕ) (s : List Char) (fuel₂ : ℕ),
    s.length ≤ fuel₁ → s.length ≤ fuel₂ →
    jsSplitAux sep fuel₁ s = jsSplitAux sep fuel₂ s := by
  intro fuel₁
  induction fuel₁ with
  | zero =>
    intro s fuel₂ h1 _
    have hs : s = [] := List.length_eq_zero.mp (Nat.le_zero.mp h1)
    subst hs
    rw [jsSplitAux_nil, jsSplitAux_nil]
  | succ f ih =>
    intro s fuel₂ h1 h2
    cases s with
    | nil => rw [jsSplitAux_nil, jsSplitAux_nil]
    | cons c rest =>
      cases fuel₂ with
      | zero => simp at h2
      | succ g =>
        rw [jsSplitAux_succ, jsSplitAux_succ]
        simp only [List.length_cons] at h1 h2
        by_cases hp : sep ≠ [] ∧ sep.isPrefixOf (c :: rest)
        · rw [if_pos hp, if_pos hp]
          have hd1 : (List.drop (sep.length - 1) rest).length ≤ f := by
            rw [List.length_drop]
            omega
          have hd2 : (List.drop (sep.length - 1) rest).length ≤ g := by
            rw [List.length_drop]
            omega
          rw [ih (List.drop (sep.length - 1) rest) g hd1 hd2]
        · rw [if_neg hp, if_neg hp, ih rest g (by omega) (by omega)]

theorem jsSplit_nil (sep : List Char) : jsSplit sep [] = [[]] := rfl

theorem jsSplit_cons (sep : List Char) (c : Char) (rest : List Char) :
    jsSplit sep (c :: rest) =
      if sep ≠ [] ∧ sep.isPrefixOf (c :: rest) then
        [] :: jsSplit sep (List.drop (sep.length - 1) rest)
      else
        match jsSplit sep rest with
        | [] => [[c]]
        | hd :: tl => (c :: hd) :: tl := by
  show jsSplitAux sep (c :: rest).length (c :: rest) = _
  rw [List.length_cons, jsSplitAux_succ]
  by_cases hp : sep ≠ [] ∧ sep.isPrefixOf (c :: rest)
  · rw [if_pos hp, if_pos hp]
    have hd1 : (List.drop (sep.length - 1) rest).length ≤ rest.length := by
      rw [List.length_drop]
      omega
    rw [jsSplitAux_fuel sep rest.length (List.drop (sep.length - 1) rest)
      (List.drop (sep.length - 1) rest).length hd1 (le_refl _)]
    rfl
  · rw [if_neg hp, if_neg hp]
    rfl

/-! ### C3: separator-specific split lemmas -/

theorem jsSplit_nl_no (b : List Char) (hb : ∀ c ∈ b, c ≠ '\n') :
    jsSplit ['\n'] b = [b] := by
  induction b with
  | nil => rfl
  | cons c rest ih =>
    rw [jsSplit_cons]
    have hc : c ≠ '\n' := hb c (List.mem_cons_self c rest)
    have hp : ¬(['\n'] ≠ [] ∧ List.isPrefixOf ['\n'] (c :: rest)) := by
      intro hcon
      have h2 := hcon.2
      simp [List.isPrefixOf] at h2
      exact hc h2.symm
    rw [if_neg hp, ih (fun x hx => hb x (List.mem_cons_of_mem c hx))]

theorem jsSplit_nl_cut (b r : List Char) (hb : ∀ c ∈ b, c ≠ '\n') :
    jsSplit ['\n'] (b ++ '\n' :: r) = b :: jsSplit ['\n'] r := by
  induction b with
  | nil =>
    rw [List.nil_append, jsSplit_cons]
    have hp : (['\n'] : List Char) ≠ [] ∧ List.isPrefixOf ['\n'] ('\n' :: r) := by
      refine ⟨by simp, ?_⟩
      simp [List.isPrefixOf]
    rw [if_pos hp]
    simp
  | cons c rest ih =>
    rw [List.cons_append, jsSplit_cons]
    have hc : c ≠ '\n' := hb c (List.mem_cons_self c rest)
    have hp : ¬(['\n'] ≠ [] ∧ List.isPrefixOf ['\n'] (c :: (rest ++ '\n' :: r))) := by
      intro hcon
      have h2 := hcon.2
      simp [List.isPrefixOf] at h2
      exact hc h2.symm
    rw [if_neg hp, ih (fun x hx => hb x (List.mem_cons_of_mem c hx))]

theorem noDoubleNL_cons (a : Char) (l : List Char) (h : noDoubleNL (a :: l) = true) :
    noDoubleNL l = true := by
  cases l with
  | nil => rfl
  | cons b bs =>
    simp only [noDoubleNL, Bool.and_eq_true] at h
    exact h.2

theorem noDoubleNL_head (a b : Char) (l : List Char)
    (h : noDoubleNL (a :: b :: l) = true) : ¬(a = '\n' ∧ b = '\n') := by
  simp only [noDoubleNL, Bool.and_eq_true] at h
  rcases h with ⟨h1, _⟩
  intro hc
  rw [hc.1, hc.2] at h1
  simp at h1

theorem jsSplit_nl2_no (b : List Char) (hb : noDoubleNL b = true) :
    jsSplit ['\n', '\n'] b = [b] := by
  induction b with
  | nil => rfl
  | cons c rest ih =>
    rw [jsSplit_cons]
    have hp : ¬((['\n', '\n'] : List Char) ≠ [] ∧
        List.isPrefixOf ['\n', '\n'] (c :: rest)) := by
      intro hcon
      have h2 := hcon.2
      cases rest with
      | nil => simp [List.isPrefixOf] at h2
      | cons d ds =>
        simp only [List.isPrefixOf, Bool.and_eq_true, beq_iff_eq] at h2
        exact noDoubleNL_head c d ds hb ⟨h2.1.symm, h2.2.1.symm⟩
    rw [if_neg hp, ih (noDoubleNL_cons c rest hb)]

theorem jsSplit_nl2_cut (b r : List Char) (hb : noDoubleNL b = true)
    (hlast : b.getLast? ≠ some '\n') :
    jsSplit ['\n', '\n'] (b ++ '\n' :: '\n' :: r) = b :: jsSplit ['\n', '\n'] r := by
  induction b with
  | nil =>
    rw [List.nil_append, jsSplit_cons]
    have hp : (['\n', '\n'] : List Char) ≠ [] ∧
        List.isPrefixOf ['\n', '\n'] ('\n' :: '\n' :: r) := by
      refine ⟨by simp, ?_⟩
      simp [List.isPrefixOf]
    rw [if_pos hp]
    simp
  | cons c rest ih =>
    rw [List.cons_append, jsSplit_cons]
    have hp : ¬((['\n', '\n'] : List Char) ≠ [] ∧
        List.isPrefixOf ['\n', '\n'] (c :: (rest ++ '\n' :: '\n' :: r))) := by
      intro hcon
      have h2 := hcon.2
      cases rest with
      | nil =>
        simp only [List.nil_append, List.isPrefixOf, Bool.and_eq_true, beq_iff_eq] at h2
        have hc : c = '\n' := h2.1.symm
        simp only [List.getLast?_singleton, ne_eq, Option.some.injEq] at hlast
        exact hlast hc
      | cons d ds =>
        simp only [List.cons_append, List.isPrefixOf, Bool.and_eq_true, beq_iff_eq] at h2
        exact noDoubleNL_head c d ds hb ⟨h2.1.symm, h2.2.1.symm⟩
    rw [if_neg hp]
    have hrest : noDoubleNL rest = true := noDoubleNL_cons c rest hb
    have hlast' : rest.getLast? ≠ some '\n' := by
      cases rest with
      | nil => simp
      | cons d ds =>
        intro hc
        apply hlast
        rw [List.getLast?_cons_cons]
        exact hc
    rw [ih hrest hlast']

theorem jsSplit_arrow_no (b : List Char) (hb : ∀ c ∈ b, c ≠ ' ') :
    jsSplit srtSepArrow b = [b] := by
  induction b with
  | nil => rfl
  | cons c rest ih =>
    rw [jsSplit_cons]
    have hc : c ≠ ' ' := hb c (List.mem_cons_self c rest)
    have hp : ¬(srtSepArrow ≠ [] ∧ List.isPrefixOf srtSepArrow (c :: rest)) := by
      intro hcon
      have h2 := hcon.2
      simp only [srtSepArrow, List.isPrefixOf, Bool.and_eq_true, beq_iff_eq] at h2
      exact hc h2.1.symm
    rw [if_neg hp, ih (fun x hx => hb x (List.mem_cons_of_mem c hx))]

theorem jsSplit_arrow_cut (b r : List Char) (hb : ∀ c ∈ b, c ≠ ' ') :
    jsSplit srtSepArrow (b ++ srtSepArrow ++ r) = b :: jsSplit srtSepArrow r := by
  rw [List.append_assoc]
  induction b with
  | nil =>
    rw [List.nil_append]
    show jsSplit srtSepArrow (' ' :: ('-' :: '-' :: '>' :: ' ' :: r)) = _
    rw [jsSplit_cons]
    have hp : srtSepArrow ≠ [] ∧
        List.isPrefixOf srtSepArrow (' ' :: ('-' :: '-' :: '>' :: ' ' :: r)) := by
      refine ⟨by simp [srtSepArrow], ?_⟩
      exact List.isPrefixOf_iff_prefix.mpr (List.prefix_append srtSepArrow r)
    rw [if_pos hp]
    simp [srtSepArrow]
  | cons c rest ih =>
    rw [List.cons_append, jsSplit_cons]
    have hc : c ≠ ' ' := hb c (List.mem_cons_self c rest)
    have hp : ¬(srtSepArrow ≠ [] ∧
        List.isPrefixOf srtSepArrow (c :: (rest ++ (srtSepArrow ++ r)))) := by
      intro hcon
      have h2 := hcon.2
      simp only [srtSepArrow, List.isPrefixOf, Bool.and_eq_true, beq_iff_eq] at h2
      exact hc h2.1.symm
    rw [if_neg hp, ih (fun x hx => hb x (List.mem_cons_of_mem c hx))]

theorem containsSub_self_append (pat r : List Char) (hpat : pat ≠ []) :
    containsSub pat (pat ++ r) = true := by
  match pat, hpat with
  | p :: ps, _ =>
    rw [List.cons_append, containsSub]
    have : List.isPrefixOf (p :: ps) (p :: (ps ++ r)) = true := by
      apply List.isPrefixOf_iff_prefix.mpr
      exact List.prefix_append (p :: ps) r
    rw [this]
    simp

theorem containsSub_cons_of (pat : List Char) (c : Char) (r : List Char)
    (h : containsSub pat r = true) : containsSub pat (c :: r) = true := by
  rw [containsSub, h]
  simp

theorem containsSub_append_right (pat a b : List Char)
    (h : containsSub pat b = true) : containsSub pat (a ++ b) = true := by
  induction a with
  | nil => simpa using h
  | cons c rest ih => exact containsSub_cons_of pat c (rest ++ b) ih

/-! ### C3: splitAnyOf, digits, parseInt -/

theorem splitAnyOf_no (seps b : List Char) (hb : ∀ c ∈ b, c ∉ seps) :
    splitAnyOf seps b = [b] := by
  induction b with
  | nil => rfl
  | cons c rest ih =>
    rw [splitAnyOf, if_neg (hb c (List.mem_cons_self c rest)),
      ih (fun x hx => hb x (List.mem_cons_of_mem c hx))]

theorem splitAnyOf_cut (seps b : List Char) (c : Char) (r : List Char)
    (hb : ∀ x ∈ b, x ∉ seps) (hc : c ∈ seps) :
    splitAnyOf seps (b ++ c :: r) = b :: splitAnyOf seps r := by
  induction b with
  | nil =>
    rw [List.nil_append, splitAnyOf, if_pos hc]
  | cons d rest ih =>
    rw [List.cons_append, splitAnyOf, if_neg (hb d (List.mem_cons_self d rest)),
      ih (fun x hx => hb x (List.mem_cons_of_mem d hx))]

theorem digitChar_mem_digits : ∀ m : Fin 10,
    digitChar m.val ∈ ['0','1','2','3','4','5','6','7','8','9'] := by decide

theorem digit_chars_facts : ∀ c ∈ ['0','1','2','3','4','5','6','7','8','9'],
    c.isDigit = true ∧ c ≠ '\n' ∧ c ≠ '\r' ∧ c ≠ ' ' ∧ c ∉ [':', ','] ∧
    jsIsWS c = false := by decide

theorem natDigitsAux_mem : ∀ (fuel n : ℕ) (c : Char), c ∈ natDigitsAux fuel n →
    c ∈ ['0','1','2','3','4','5','6','7','8','9'] := by
  intro fuel
  induction fuel with
  | zero => intro n c hc; simp [natDigitsAux] at hc
  | succ f ih =>
    intro n c hc
    rw [natDigitsAux] at hc
    by_cases hn : n < 10
    · rw [if_pos hn] at hc
      simp only [List.mem_singleton] at hc
      subst hc
      exact digitChar_mem_digits ⟨n, hn⟩
    · rw [if_neg hn] at hc
      rcases List.mem_append.mp hc with hc | hc
      · exact ih (n / 10) c hc
      · simp only [List.mem_singleton] at hc
        subst hc
        exact digitChar_mem_digits ⟨n % 10, Nat.mod_lt n (by norm_num)⟩

theorem natDigits_mem (n : ℕ) (c : Char) (hc : c ∈ natDigits n) :
    c ∈ ['0','1','2','3','4','5','6','7','8','9'] :=
  natDigitsAux_mem (n+1) n c hc

theorem natDigitsAux_ne_nil (fuel n : ℕ) (h : 0 < fuel) : natDigitsAux fuel n ≠ [] := by
  match fuel, h with
  | f + 1, _ =>
    rw [natDigitsAux]
    by_cases hn : n < 10
    · rw [if_pos hn]; simp
    · rw [if_neg hn]; simp

theorem natDigits_ne_nil (n : ℕ) : natDigits n ≠ [] :=
  natDigitsAux_ne_nil (n+1) n (Nat.succ_pos n)

theorem digitChar_toNat : ∀ m : Fin 10, (digitChar m.val).toNat = 48 + m.val := by decide

theorem digitChar_toNat_lt (m : ℕ) (h : m < 10) : (digitChar m).toNat = 48 + m := by
  have hfin := digitChar_toNat ⟨m, h⟩
  simpa using hfin

theorem digitsToNat_append_digit (s : List Char) (c : Char) :
    digitsToNat (s ++ [c]) = digitsToNat s * 10 + (c.toNat - 48) := by
  rw [digitsToNat, digitsToNat, List.foldl_append]
  rfl

theorem digitsToNat_natDigitsAux : ∀ (fuel n : ℕ), n < fuel →
    digitsToNat (natDigitsAux fuel n) = n := by
  intro fuel
  induction fuel with
  | zero => intro n h; omega
  | succ f ih =>
    intro n h
    rw [natDigitsAux]
    by_cases hn : n < 10
    · rw [if_pos hn]
      have hd := digitChar_toNat_lt n hn
      simp only [digitsToNat, List.foldl_cons, List.foldl_nil]
      omega
    · rw [if_neg hn]
      have hdiv : n / 10 < f := by
        have h1 : n / 10 < n := Nat.div_lt_self (by omega) (by norm_num)
        omega
      rw [digitsToNat_append_digit, ih (n / 10) hdiv]
      have hd := digitChar_toNat_lt (n % 10) (Nat.mod_lt n (by norm_num))
      omega

theorem digitsToNat_natDigits (n : ℕ) : digitsToNat (natDigits n) = n :=
  digitsToNat_natDigitsAux (n+1) n (Nat.lt_succ_self n)

theorem digitsToNat_zeros_append : ∀ (m : ℕ) (s : List Char),
    digitsToNat (List.replicate m '0' ++ s) = digitsToNat s := by
  intro m
  induction m with
  | zero => intro s; rfl
  | succ k ih =>
    intro s
    rw [List.replicate_succ, List.cons_append]
    show List.foldl (fun acc c => acc * 10 + (c.toNat - 48)) 0
      ('0' :: (List.replicate k '0' ++ s)) = digitsToNat s
    rw [List.foldl_cons]
    have h0 : (0 : ℕ) * 10 + ('0'.toNat - 48) = 0 := by decide
    rw [h0]
    exact ih s

theorem jsParseInt_padded (m k : ℕ) :
    jsParseInt (List.replicate m '0' ++ natDigits k) = some k := by
  have hdig : ∀ c ∈ List.replicate m '0' ++ natDigits k, c.isDigit = true := by
    intro c hc
    rcases List.mem_append.mp hc with hc | hc
    · rw [List.eq_of_mem_replicate hc]
      decide
    · exact (digit_chars_facts c (natDigits_mem k c hc)).1
  have htw : (List.replicate m '0' ++ natDigits k).takeWhile Char.isDigit
      = List.replicate m '0' ++ natDigits k := List.takeWhile_eq_self_iff.mpr hdig
  have hne : List.replicate m '0' ++ natDigits k ≠ [] := by
    intro hnil
    rcases List.append_eq_nil.mp hnil with ⟨_, h2⟩
    exact natDigits_ne_nil k h2
  rw [jsParseInt]
  simp only [htw]
  rw [if_neg (by simpa [List.isEmpty_iff] using hne)]
  rw [digitsToNat_zeros_append, digitsToNat_natDigits]

/-! ### C3: time round trip -/

theorem floor_natCast_div_natCast (k n : ℕ) :
    ⌊(k:ℚ) / ((n:ℕ):ℚ)⌋ = ((k / n : ℕ) : ℤ) := by
  rw [int_floor_div_nat (k:ℚ) (by positivity) n, Int.floor_natCast]
  exact (Int.ofNat_div k n).symm

theorem formatSrtTime_ms (k : ℕ) :
    formatSrtTime ((k:ℚ)/1000) =
      padStart2 (natDigits (k / 3600000)) ++ ':' ::
        (padStart2 (natDigits (k / 60000 % 60)) ++ ':' ::
          (padStart2 (natDigits (k / 1000 % 60)) ++ ',' ::
            padStart3 (natDigits (k % 1000)))) := by
  have e1 : (⌊(k:ℚ)/1000/3600⌋).toNat = k / 3600000 := by
    have h : (k:ℚ)/1000/3600 = (k:ℚ) / ((3600000:ℕ):ℚ) := by
      push_cast
      ring
    rw [h, floor_natCast_div_natCast]
    omega
  have e2 : (⌊(k:ℚ)/1000/60⌋ % 60).toNat = k / 60000 % 60 := by
    have h : (k:ℚ)/1000/60 = (k:ℚ) / ((60000:ℕ):ℚ) := by
      push_cast
      ring
    rw [h, floor_natCast_div_natCast]
    omega
  have e3 : (⌊(k:ℚ)/1000⌋ % 60).toNat = k / 1000 % 60 := by
    have h : (k:ℚ)/1000 = (k:ℚ) / ((1000:ℕ):ℚ) := by push_cast; ring
    rw [h, floor_natCast_div_natCast]
    omega
  have e4 : (⌊1000 * ((k:ℚ)/1000) + 1/2⌋ % 1000).toNat = k % 1000 := by
    have h : 1000 * ((k:ℚ)/1000) + 1/2 = ((k:ℤ):ℚ) + 1/2 := by
      push_cast
      ring
    have h12 : ⌊(1/2 : ℚ)⌋ = 0 := by
      rw [Int.floor_eq_iff]
      norm_num
    rw [h, Int.floor_int_add, h12]
    omega
  rw [formatSrtTime_components ((k:ℚ)/1000) (by positivity), e1, e2, e3, e4]

theorem padStart2_digits_chars (x : ℕ) :
    ∀ c ∈ padStart2 (natDigits x),
      c ≠ '\n' ∧ c ≠ '\r' ∧ c ≠ ' ' ∧ c ∉ [':', ','] ∧ jsIsWS c = false := by
  intro c hc
  rw [padStart2] at hc
  have hd : c ∈ ['0','1','2','3','4','5','6','7','8','9'] := by
    rcases List.mem_append.mp hc with hc | hc
    · rw [List.eq_of_mem_replicate hc]
      decide
    · exact natDigits_mem x c hc
  rcases digit_chars_facts c hd with ⟨_, h2, h3, h4, h5, h6⟩
  exact ⟨h2, h3, h4, h5, h6⟩

theorem padStart3_digits_chars (x : ℕ) :
    ∀ c ∈ padStart3 (natDigits x),
      c ≠ '\n' ∧ c ≠ '\r' ∧ c ≠ ' ' ∧ c ∉ [':', ','] ∧ jsIsWS c = false := by
  intro c hc
  rw [padStart3] at hc
  have hd : c ∈ ['0','1','2','3','4','5','6','7','8','9'] := by
    rcases List.mem_append.mp hc with hc | hc
    · rw [List.eq_of_mem_replicate hc]
      decide
    · exact natDigits_mem x c hc
  rcases digit_chars_facts c hd with ⟨_, h2, h3, h4, h5, h6⟩
  exact ⟨h2, h3, h4, h5, h6⟩

theorem fmt_ms_chars (k : ℕ) :
    ∀ c ∈ formatSrtTime ((k:ℚ)/1000), c ≠ '\n' ∧ c ≠ '\r' ∧ c ≠ ' ' := by
  rw [formatSrtTime_ms k]
  intro c hc
  rcases List.mem_append.mp hc with hc | hc
  · rcases padStart2_digits_chars _ c hc with ⟨h1, h2, h3, _, _⟩
    exact ⟨h1, h2, h3⟩
  · rcases List.mem_cons.mp hc with rfl | hc
    · refine ⟨by decide, by decide, by decide⟩
    rcases List.mem_append.mp hc with hc | hc
    · rcases padStart2_digits_chars _ c hc with ⟨h1, h2, h3, _, _⟩
      exact ⟨h1, h2, h3⟩
    rcases List.mem_cons.mp hc with rfl | hc
    · refine ⟨by decide, by decide, by decide⟩
    rcases List.mem_append.mp hc with hc | hc
    · rcases padStart2_digits_chars _ c hc with ⟨h1, h2, h3, _, _⟩
      exact ⟨h1, h2, h3⟩
    rcases List.mem_cons.mp hc with rfl | hc
    · refine ⟨by decide, by decide, by decide⟩
    rcases padStart3_digits_chars _ c hc with ⟨h1, h2, h3, _, _⟩
    exact ⟨h1, h2, h3⟩

theorem fmt_ne_nil (k : ℕ) : formatSrtTime ((k:ℚ)/1000) ≠ [] := by
  rw [formatSrtTime_ms k]
  intro h
  rcases List.append_eq_nil.mp h with ⟨_, h2⟩
  simp at h2

theorem srtTimeToSeconds_fmt (k : ℕ) :
    srtTimeToSeconds (formatSrtTime ((k:ℚ)/1000)) = some ((k:ℚ)/1000) := by
  rw [formatSrtTime_ms k]
  have hsep : (':' : Char) ∈ [':', ','] := by decide
  have hsep2 : (',' : Char) ∈ [':', ','] := by decide
  have hno1 : ∀ c ∈ padStart2 (natDigits (k / 3600000)), c ∉ [':', ','] :=
    fun c hc => (padStart2_digits_chars _ c hc).2.2.2.1
  have hno2 : ∀ c ∈ padStart2 (natDigits (k / 60000 % 60)), c ∉ [':', ','] :=
    fun c hc => (padStart2_digits_chars _ c hc).2.2.2.1
  have hno3 : ∀ c ∈ padStart2 (natDigits (k / 1000 % 60)), c ∉ [':', ','] :=
    fun c hc => (padStart2_digits_chars _ c hc).2.2.2.1
  have hno4 : ∀ c ∈ padStart3 (natDigits (k % 1000)), c ∉ [':', ','] :=
    fun c hc => (padStart3_digits_chars _ c hc).2.2.2.1
  have hsplit : splitAnyOf [':', ','] (padStart2 (natDigits (k / 3600000)) ++ ':' ::
      (padStart2 (natDigits (k / 60000 % 60)) ++ ':' ::
        (padStart2 (natDigits (k / 1000 % 60)) ++ ',' ::
          padStart3 (natDigits (k % 1000))))) =
      [padStart2 (natDigits (k / 3600000)), padStart2 (natDigits (k / 60000 % 60)),
        padStart2 (natDigits (k / 1000 % 60)), padStart3 (natDigits (k % 1000))] := by
    rw [splitAnyOf_cut _ _ _ _ hno1 hsep, splitAnyOf_cut _ _ _ _ hno2 hsep,
      splitAnyOf_cut _ _ _ _ hno3 hsep2, splitAnyOf_no _ _ hno4]
  have hp2 : ∀ x : ℕ, jsParseInt (padStart2 (natDigits x)) = some x := by
    intro x
    rw [padStart2]
    exact jsParseInt_padded _ x
  have hp3 : ∀ x : ℕ, jsParseInt (padStart3 (natDigits x)) = some x := by
    intro x
    rw [padStart3]
    exact jsParseInt_padded _ x
  rw [srtTimeToSeconds]
  simp only [hsplit, List.getD_cons_zero, List.getD_cons_succ, hp2, hp3]
  have hk : 3600000 * (k / 3600000) + 60000 * (k / 60000 % 60)
      + 1000 * (k / 1000 % 60) + k % 1000 = k := by omega
  congr 1
  have hkq : ((3600000 * (k / 3600000) + 60000 * (k / 60000 % 60)
      + 1000 * (k / 1000 % 60) + k % 1000 : ℕ) : ℚ) = (k : ℚ) := by
    exact_mod_cast congrArg (fun n : ℕ => (n : ℚ)) hk
  push_cast at hkq
  field_simp
  linarith

/-! ### C3: list-edge helpers -/

theorem head_append_left (a b : List Char) (ha : a ≠ []) :
    (a ++ b).head? = a.head? := by
  cases a with
  | nil => exact absurd rfl ha
  | cons x xs => simp

theorem getLast_append_right (a b : List Char) (hb : b ≠ []) :
    (a ++ b).getLast? = b.getLast? :=
  List.getLast?_append_of_ne_nil a hb

theorem head_ne_of_all (l : List Char) (p : Char) (h : ∀ c ∈ l, c ≠ p) :
    l.head? ≠ some p := by
  cases l with
  | nil => simp
  | cons c r =>
    simp only [List.head?_cons, ne_eq, Option.some.injEq]
    exact h c (List.mem_cons_self c r)

theorem getLast_ne_of_all (l : List Char) (p : Char) (h : ∀ c ∈ l, c ≠ p) :
    l.getLast? ≠ some p := by
  intro hc
  exact h p (List.mem_of_mem_getLast? hc) rfl

theorem dropWhile_cons_false (p : Char → Bool) (c : Char) (l : List Char)
    (hc : p c = false) : List.dropWhile p (c :: l) = c :: l := by
  simp [List.dropWhile_cons, hc]

theorem jsTrim_append_nl2 (J : List Char) (hne : J ≠ [])
    (hhead : ∀ c, J.head? = some c → jsIsWS c = false)
    (hlast : ∀ c, J.getLast? = some c → jsIsWS c = false) :
    jsTrim (J ++ ['\n', '\n']) = J := by
  obtain ⟨c, M, rfl⟩ : ∃ c M, J = c :: M := by
    cases J with
    | nil => exact absurd rfl hne
    | cons c M => exact ⟨c, M, rfl⟩
  have hc : jsIsWS c = false := hhead c rfl
  obtain ⟨d, R, hrev⟩ : ∃ d R, (c :: M).reverse = d :: R := by
    cases h : (c :: M).reverse with
    | nil => exact absurd (List.reverse_eq_nil_iff.mp h) (List.cons_ne_nil c M)
    | cons d R => exact ⟨d, R, rfl⟩
  have hd : jsIsWS d = false := by
    apply hlast
    rw [← List.head?_reverse, hrev]
    rfl
  have h1 : ((c :: M) ++ ['\n', '\n']).dropWhile jsIsWS = (c :: M) ++ ['\n', '\n'] := by
    rw [List.cons_append]
    exact dropWhile_cons_false jsIsWS c (M ++ ['\n', '\n']) hc
  rw [jsTrim, h1]
  have h2 : ((c :: M) ++ ['\n', '\n']).reverse = '\n' :: '\n' :: (c :: M).reverse := by
    simp
  rw [h2, hrev]
  have h3 : List.dropWhile jsIsWS ('\n' :: '\n' :: d :: R) = d :: R := by
    rw [List.dropWhile_cons, if_pos (by decide), List.dropWhile_cons, if_pos (by decide)]
    exact dropWhile_cons_false jsIsWS d R hd
  rw [h3, ← hrev, List.reverse_reverse]

/-! ### C3: character classes of generated text -/

theorem intToStr_chars (n : ℤ) :
    ∀ c ∈ intToStr n, c ≠ '\n' ∧ c ≠ '\r' ∧ c ≠ ' ' := by
  intro c hc
  rw [intToStr] at hc
  by_cases hn : n < 0
  · rw [if_pos hn] at hc
    rcases List.mem_cons.mp hc with rfl | hc
    · refine ⟨by decide, by decide, by decide⟩
    · rcases digit_chars_facts c (natDigits_mem _ c hc) with ⟨_, h2, h3, h4, _, _⟩
      exact ⟨h2, h3, h4⟩
  · rw [if_neg hn] at hc
    rcases digit_chars_facts c (natDigits_mem _ c hc) with ⟨_, h2, h3, h4, _, _⟩
    exact ⟨h2, h3, h4⟩

theorem padStart2_chars (s : List Char)
    (hs : ∀ c ∈ s, c ≠ '\n' ∧ c ≠ '\r' ∧ c ≠ ' ') :
    ∀ c ∈ padStart2 s, c ≠ '\n' ∧ c ≠ '\r' ∧ c ≠ ' ' := by
  intro c hc
  rw [padStart2] at hc
  rcases List.mem_append.mp hc with hc | hc
  · rw [List.eq_of_mem_replicate hc]
    refine ⟨by decide, by decide, by decide⟩
  · exact hs c hc

theorem padStart3_chars (s : List Char)
    (hs : ∀ c ∈ s, c ≠ '\n' ∧ c ≠ '\r' ∧ c ≠ ' ') :
    ∀ c ∈ padStart3 s, c ≠ '\n' ∧ c ≠ '\r' ∧ c ≠ ' ' := by
  intro c hc
  rw [padStart3] at hc
  rcases List.mem_append.mp hc with hc | hc
  · rw [List.eq_of_mem_replicate hc]
    refine ⟨by decide, by decide, by decide⟩
  · exact hs c hc

theorem formatSrtTime_chars (t : ℚ) :
    ∀ c ∈ formatSrtTime t, c ≠ '\n' ∧ c ≠ '\r' ∧ c ≠ ' ' := by
  intro c hc
  rw [formatSrtTime] at hc
  have hdig : ∀ x : ℕ, ∀ c ∈ natDigits x, c ≠ '\n' ∧ c ≠ '\r' ∧ c ≠ ' ' := by
    intro x c hc
    rcases digit_chars_facts c (natDigits_mem x c hc) with ⟨_, h2, h3, h4, _, _⟩
    exact ⟨h2, h3, h4⟩
  rcases List.mem_append.mp hc with hc | hc
  · exact padStart2_chars _ (intToStr_chars _) c hc
  · rcases List.mem_cons.mp hc with rfl | hc
    · refine ⟨by decide, by decide, by decide⟩
    rcases List.mem_append.mp hc with hc | hc
    · exact padStart2_chars _ (intToStr_chars _) c hc
    rcases List.mem_cons.mp hc with rfl | hc
    · refine ⟨by decide, by decide, by decide⟩
    rcases List.mem_append.mp hc with hc | hc
    · exact padStart2_chars _ (intToStr_chars _) c hc
    rcases List.mem_cons.mp hc with rfl | hc
    · refine ⟨by decide, by decide, by decide⟩
    · rw [toFixed3sub2] at hc
      exact padStart3_chars _ (hdig _) c hc

theorem formatSrtTime_ne_nil (t : ℚ) : formatSrtTime t ≠ [] := by
  rw [formatSrtTime]
  intro h
  rcases List.append_eq_nil.mp h with ⟨_, h2⟩
  simp at h2

theorem timeLineOf_no_nl (l : TimedLyric) : ∀ c ∈ timeLineOf l, c ≠ '\n' := by
  intro c hc
  rw [timeLineOf] at hc
  rcases List.mem_append.mp hc with hc | hc
  · rcases List.mem_append.mp hc with hc | hc
    · exact (formatSrtTime_chars _ c hc).1
    · rw [srtSepArrow] at hc
      fin_cases hc <;> decide
  · exact (formatSrtTime_chars _ c hc).1

theorem timeLineOf_no_cr (l : TimedLyric) : ∀ c ∈ timeLineOf l, c ≠ '\r' := by
  intro c hc
  rw [timeLineOf] at hc
  rcases List.mem_append.mp hc with hc | hc
  · rcases List.mem_append.mp hc with hc | hc
    · exact (formatSrtTime_chars _ c hc).2.1
    · rw [srtSepArrow] at hc
      fin_cases hc <;> decide
  · exact (formatSrtTime_chars _ c hc).2.1

theorem natDigits_no_nl (n : ℕ) : ∀ c ∈ natDigits n, c ≠ '\n' := by
  intro c hc
  exact (digit_chars_facts c (natDigits_mem n c hc)).2.1

theorem natDigits_no_cr (n : ℕ) : ∀ c ∈ natDigits n, c ≠ '\r' := by
  intro c hc
  exact (digit_chars_facts c (natDigits_mem n c hc)).2.2.1

/-! ### C3: block bodies and their structure -/

theorem noDoubleNL_of_no_nl (b : List Char) (hb : ∀ c ∈ b, c ≠ '\n') :
    noDoubleNL b = true := by
  induction b with
  | nil => rfl
  | cons c r ih =>
    cases r with
    | nil => rfl
    | cons d s =>
      have hc : c ≠ '\n' := hb c (List.mem_cons_self c (d :: s))
      simp only [noDoubleNL, Bool.and_eq_true, Bool.not_eq_true']
      refine ⟨by simp [hc], ?_⟩
      exact ih (fun x hx => hb x (List.mem_cons_of_mem c hx))

theorem noDoubleNL_append (a b : List Char) (ha : noDoubleNL a = true)
    (hb : noDoubleNL b = true)
    (hj : ¬(a.getLast? = some '\n' ∧ b.head? = some '\n')) :
    noDoubleNL (a ++ b) = true := by
  induction a with
  | nil => simpa using hb
  | cons x rest ih =>
    cases rest with
    | nil =>
      cases b with
      | nil => rfl
      | cons y ys =>
        have hxy : ¬(x = '\n' ∧ y = '\n') := by
          intro hcon
          exact hj ⟨by simp [hcon.1], by simp [hcon.2]⟩
        show noDoubleNL (x :: y :: ys) = true
        simp only [noDoubleNL, Bool.and_eq_true, Bool.not_eq_true']
        refine ⟨?_, hb⟩
        rcases not_and_or.mp hxy with h | h <;> simp [h]
    | cons z zs =>
      have ha2 : noDoubleNL (z :: zs) = true := noDoubleNL_cons x (z :: zs) ha
      have hxz : ¬(x = '\n' ∧ z = '\n') := noDoubleNL_head x z zs ha
      have hj2 : ¬((z :: zs).getLast? = some '\n' ∧ b.head? = some '\n') := by
        rw [← List.getLast?_cons_cons]
        exact hj
      show noDoubleNL (x :: (z :: (zs ++ b))) = true
      simp only [noDoubleNL, Bool.and_eq_true, Bool.not_eq_true']
      constructor
      · rcases not_and_or.mp hxz with h | h <;> simp [h]
      · exact ih ha2 hj2

theorem mem_of_head (l : List Char) (c : Char) (h : l.head? = some c) : c ∈ l := by
  cases l with
  | nil => simp at h
  | cons x xs =>
    simp only [List.head?_cons, Option.some.injEq] at h
    rw [← h]
    exact List.mem_cons_self x xs

theorem timeLineOf_ne_nil (l : TimedLyric) : timeLineOf l ≠ [] := by
  rw [timeLineOf]
  intro h
  rcases List.append_eq_nil.mp h with ⟨_, h2⟩
  exact formatSrtTime_ne_nil _ h2

theorem blockBody_ne_nil (l : TimedLyric) (j : ℕ) : blockBody l j ≠ [] := by
  rw [blockBody]
  intro h
  rcases List.append_eq_nil.mp h with ⟨_, h2⟩
  simp at h2

theorem blockBody_head (l : TimedLyric) (j : ℕ) :
    (blockBody l j).head? = (natDigits (j + 1)).head? := by
  rw [blockBody]
  exact head_append_left _ _ (natDigits_ne_nil _)

theorem blockBody_head_ws (l : TimedLyric) (j : ℕ) :
    ∀ c, (blockBody l j).head? = some c → jsIsWS c = false := by
  intro c hc
  rw [blockBody_head] at hc
  have hm : c ∈ natDigits (j + 1) := mem_of_head _ c hc
  exact (digit_chars_facts c (natDigits_mem _ c hm)).2.2.2.2.2

theorem blockBody_last (l : TimedLyric) (j : ℕ) (ht : l.text ≠ []) :
    (blockBody l j).getLast? = l.text.getLast? := by
  rw [blockBody]
  rw [getLast_append_right _ _ (List.cons_ne_nil _ _)]
  show (['\n'] ++ (timeLineOf l ++ '\n' :: l.text)).getLast? = _
  rw [getLast_append_right _ _ (by simp)]
  rw [getLast_append_right _ _ (List.cons_ne_nil _ _)]
  show (['\n'] ++ l.text).getLast? = _
  rw [getLast_append_right _ _ ht]

theorem blockBody_last_ws (l : TimedLyric) (j : ℕ) (htext : TextOK l.text) :
    ∀ c, (blockBody l j).getLast? = some c → jsIsWS c = false := by
  intro c hc
  rw [blockBody_last l j htext.1] at hc
  have hd : l.text.getLastD 'x' = c := by
    rw [List.getLastD_eq_getLast?, hc]
    rfl
  rw [← hd]
  exact htext.2.2

theorem blockBody_last_ne_nl (l : TimedLyric) (j : ℕ) (htext : TextOK l.text) :
    (blockBody l j).getLast? ≠ some '\n' := by
  intro hc
  have := blockBody_last_ws l j htext '\n' hc
  simp [jsIsWS] at this

theorem blockBody_noDoubleNL (l : TimedLyric) (j : ℕ) (htext : TextOK l.text) :
    noDoubleNL (blockBody l j) = true := by
  have hTnl : ∀ c ∈ l.text, c ≠ '\n' := fun c hc => (htext.2.1 c hc).1
  have s1 : noDoubleNL ('\n' :: l.text) = true := by
    have := noDoubleNL_append ['\n'] l.text rfl (noDoubleNL_of_no_nl _ hTnl)
      (fun hcon => head_ne_of_all _ _ hTnl hcon.2)
    simpa using this
  have s2 : noDoubleNL (timeLineOf l ++ '\n' :: l.text) = true :=
    noDoubleNL_append _ _ (noDoubleNL_of_no_nl _ (timeLineOf_no_nl l)) s1
      (fun hcon => getLast_ne_of_all _ _ (timeLineOf_no_nl l) hcon.1)
  have s3 : noDoubleNL ('\n' :: (timeLineOf l ++ '\n' :: l.text)) = true := by
    have hh : (timeLineOf l ++ '\n' :: l.text).head? ≠ some '\n' := by
      rw [head_append_left _ _ (timeLineOf_ne_nil l)]
      exact head_ne_of_all _ _ (timeLineOf_no_nl l)
    have := noDoubleNL_append ['\n'] _ rfl s2 (fun hcon => hh hcon.2)
    simpa using this
  rw [blockBody]
  exact noDoubleNL_append _ _ (noDoubleNL_of_no_nl _ (natDigits_no_nl _)) s3
    (fun hcon => getLast_ne_of_all _ _ (natDigits_no_nl _) hcon.1)

theorem blockBody_mem (l : TimedLyric) (j : ℕ) (c : Char)
    (hc : c ∈ blockBody l j) :
    c ∈ natDigits (j + 1) ∨ c = '\n' ∨ c ∈ timeLineOf l ∨ c ∈ l.text := by
  rw [blockBody] at hc
  rcases List.mem_append.mp hc with hc | hc
  · exact Or.inl hc
  rcases List.mem_cons.mp hc with rfl | hc
  · exact Or.inr (Or.inl rfl)
  rcases List.mem_append.mp hc with hc | hc
  · exact Or.inr (Or.inr (Or.inl hc))
  rcases List.mem_cons.mp hc with rfl | hc
  · exact Or.inr (Or.inl rfl)
  · exact Or.inr (Or.inr (Or.inr hc))

theorem blockBody_no_cr (l : TimedLyric) (j : ℕ) (htext : TextOK l.text) :
    ∀ c ∈ blockBody l j, c ≠ '\r' := by
  intro c hc
  rcases blockBody_mem l j c hc with h | h | h | h
  · exact natDigits_no_cr _ c h
  · rw [h]; decide
  · exact timeLineOf_no_cr l c h
  · exact (htext.2.1 c h).2

theorem parseBlock_body (l : TimedLyric) (j : ℕ) (htext : TextOK l.text) :
    parseBlock (blockBody l j) =
      some ⟨l.text, srtTimeToSeconds (formatSrtTime l.startTime),
        srtTimeToSeconds (formatSrtTime l.endTime)⟩ := by
  have hTnl : ∀ c ∈ l.text, c ≠ '\n' := fun c hc => (htext.2.1 c hc).1
  have hlines : jsSplit ['\n'] (blockBody l j)
      = [natDigits (j + 1), timeLineOf l, l.text] := by
    rw [blockBody, jsSplit_nl_cut _ _ (natDigits_no_nl _),
      jsSplit_nl_cut _ _ (timeLineOf_no_nl l), jsSplit_nl_no _ hTnl]
  have harrow : containsSub ['-', '-', '>'] (timeLineOf l) = true := by
    rw [timeLineOf]
    have hsh : formatSrtTime l.startTime ++ srtSepArrow ++ formatSrtTime l.endTime
        = (formatSrtTime l.startTime ++ [' '])
          ++ (['-', '-', '>'] ++ ([' '] ++ formatSrtTime l.endTime)) := by
      simp [srtSepArrow]
    rw [hsh]
    exact containsSub_append_right _ _ _ (containsSub_self_append _ _ (by decide))
  have hsplitTL : jsSplit srtSepArrow (timeLineOf l)
      = [formatSrtTime l.startTime, formatSrtTime l.endTime] := by
    rw [timeLineOf,
      jsSplit_arrow_cut _ _ (fun c hc => (formatSrtTime_chars _ c hc).2.2),
      jsSplit_arrow_no _ (fun c hc => (formatSrtTime_chars _ c hc).2.2)]
  rw [parseBlock]
  simp only [hlines, List.length_cons, List.length_nil, List.getD_cons_succ,
    List.getD_cons_zero]
  rw [if_neg (by omega), if_pos ⟨timeLineOf_ne_nil l, harrow⟩, hsplitTL]
  simp [List.intercalate]

/-! ### C3: the joined content and the full parse -/

theorem coreJoin_one (l : TimedLyric) (i : ℕ) : coreJoin [l] i = blockBody l i := rfl

theorem coreJoin_cons2 (l r : TimedLyric) (rs : List TimedLyric) (i : ℕ) :
    coreJoin (l :: r :: rs) i
      = blockBody l i ++ '\n' :: '\n' :: coreJoin (r :: rs) (i + 1) := rfl

theorem bodiesList_cons (l : TimedLyric) (rest : List TimedLyric) (i : ℕ) :
    bodiesList (l :: rest) i = blockBody l i :: bodiesList rest (i + 1) := rfl

theorem srtBlock_eq (l : TimedLyric) (i : ℕ) :
    srtBlock l i = blockBody l i ++ ['\n', '\n'] := by
  simp [srtBlock, blockBody, timeLineOf, List.append_assoc]

theorem generateSrtAux_eq (l : TimedLyric) (rest : List TimedLyric) (i : ℕ) :
    generateSrtAux (l :: rest) i = coreJoin (l :: rest) i ++ ['\n', '\n'] := by
  induction rest generalizing l i with
  | nil =>
    rw [generateSrtAux, generateSrtAux, coreJoin_one, srtBlock_eq, List.append_nil]
  | cons r rs ih =>
    rw [generateSrtAux, ih r (i + 1), coreJoin_cons2, srtBlock_eq]
    simp [List.append_assoc]

theorem coreJoin_ne_nil (l : TimedLyric) (rest : List TimedLyric) (i : ℕ) :
    coreJoin (l :: rest) i ≠ [] := by
  cases rest with
  | nil =>
    rw [coreJoin_one]
    exact blockBody_ne_nil l i
  | cons r rs =>
    rw [coreJoin_cons2]
    intro h
    exact blockBody_ne_nil l i (List.append_eq_nil.mp h).1

theorem coreJoin_head_ws (l : TimedLyric) (rest : List TimedLyric) (i : ℕ) :
    ∀ c, (coreJoin (l :: rest) i).head? = some c → jsIsWS c = false := by
  intro c hc
  cases rest with
  | nil =>
    rw [coreJoin_one] at hc
    exact blockBody_head_ws l i c hc
  | cons r rs =>
    rw [coreJoin_cons2, head_append_left _ _ (blockBody_ne_nil l i)] at hc
    exact blockBody_head_ws l i c hc

theorem coreJoin_last_ws (l : TimedLyric) (rest : List TimedLyric) (i : ℕ)
    (htext : ∀ x ∈ l :: rest, TextOK x.text) :
    ∀ c, (coreJoin (l :: rest) i).getLast? = some c → jsIsWS c = false := by
  induction rest generalizing l i with
  | nil =>
    intro c hc
    rw [coreJoin_one] at hc
    exact blockBody_last_ws l i (htext l (List.mem_cons_self l [])) c hc
  | cons r rs ih =>
    intro c hc
    rw [coreJoin_cons2] at hc
    rw [getLast_append_right _ _ (List.cons_ne_nil _ _)] at hc
    have h2 : ('\n' :: '\n' :: coreJoin (r :: rs) (i + 1)).getLast?
        = (coreJoin (r :: rs) (i + 1)).getLast? := by
      show (['\n', '\n'] ++ coreJoin (r :: rs) (i + 1)).getLast? = _
      exact getLast_append_right _ _ (coreJoin_ne_nil r rs (i + 1))
    rw [h2] at hc
    exact ih r (i + 1) (fun x hx => htext x (List.mem_cons_of_mem l hx)) c hc

theorem coreJoin_no_cr (lyrics : List TimedLyric) (i : ℕ)
    (htext : ∀ x ∈ lyrics, TextOK x.text) :
    ∀ c ∈ coreJoin lyrics i, c ≠ '\r' := by
  induction lyrics generalizing i with
  | nil => intro c hc; simp [coreJoin] at hc
  | cons l rest ih =>
    intro c hc
    cases rest with
    | nil =>
      rw [coreJoin_one] at hc
      exact blockBody_no_cr l i (htext l (List.mem_cons_self l [])) c hc
    | cons r rs =>
      rw [coreJoin_cons2] at hc
      rcases List.mem_append.mp hc with hc | hc
      · exact blockBody_no_cr l i (htext l (List.mem_cons_self l _)) c hc
      rcases List.mem_cons.mp hc with rfl | hc
      · decide
      rcases List.mem_cons.mp hc with rfl | hc
      · decide
      · exact ih i.succ (fun x hx => htext x (List.mem_cons_of_mem l hx)) c hc

theorem jsSplit_coreJoin (l : TimedLyric) (rest : List TimedLyric) (i : ℕ)
    (htext : ∀ x ∈ l :: rest, TextOK x.text) :
    jsSplit ['\n', '\n'] (coreJoin (l :: rest) i) = bodiesList (l :: rest) i := by
  induction rest generalizing l i with
  | nil =>
    rw [coreJoin_one,
      jsSplit_nl2_no _ (blockBody_noDoubleNL l i (htext l (List.mem_cons_self l []))),
      bodiesList_cons]
    rfl
  | cons r rs ih =>
    have hl := htext l (List.mem_cons_self l _)
    rw [coreJoin_cons2,
      jsSplit_nl2_cut _ _ (blockBody_noDoubleNL l i hl) (blockBody_last_ne_nl l i hl),
      ih r (i + 1) (fun x hx => htext x (List.mem_cons_of_mem l hx)), bodiesList_cons]
    rfl

theorem parse_foldl (bs : List (List Char)) (acc : List ParsedLyric) :
    bs.foldl (fun acc block => match parseBlock block with
      | some entry => acc ++ [entry]
      | none => acc) acc = acc ++ bs.filterMap parseBlock := by
  induction bs generalizing acc with
  | nil => simp
  | cons b rest ih =>
    rw [List.foldl_cons, ih]
    cases h : parseBlock b with
    | none => simp [List.filterMap_cons, h]
    | some e => simp [List.filterMap_cons, h]

theorem parse_bodies (lyrics : List TimedLyric) (i : ℕ)
    (htext : ∀ l ∈ lyrics, TextOK l.text)
    (htime : ∀ l ∈ lyrics, MsTime l.startTime ∧ MsTime l.endTime) :
    (bodiesList lyrics i).filterMap parseBlock
      = lyrics.map (fun l => ParsedLyric.mk l.text (some l.startTime) (some l.endTime)) := by
  induction lyrics generalizing i with
  | nil => rfl
  | cons l rest ih =>
    have hl := htext l (List.mem_cons_self l rest)
    obtain ⟨⟨ks, hks⟩, ⟨ke, hke⟩⟩ := htime l (List.mem_cons_self l rest)
    have h1 : srtTimeToSeconds (formatSrtTime l.startTime) = some l.startTime := by
      rw [hks, srtTimeToSeconds_fmt]
    have h2 : srtTimeToSeconds (formatSrtTime l.endTime) = some l.endTime := by
      rw [hke, srtTimeToSeconds_fmt]
    rw [bodiesList_cons]
    simp only [List.filterMap_cons, parseBlock_body l i hl, h1, h2, List.map_cons]
    rw [ih (i + 1) (fun x hx => htext x (List.mem_cons_of_mem l hx))
      (fun x hx => htime x (List.mem_cons_of_mem l hx))]

theorem srt_roundtrip_core (lyrics : List TimedLyric)
    (htext : ∀ l ∈ lyrics, TextOK l.text)
    (htime : ∀ l ∈ lyrics, MsTime l.startTime ∧ MsTime l.endTime) :
    parseSrtWithTimestamps (generateSrtContent lyrics)
      = lyrics.map (fun l => ParsedLyric.mk l.text (some l.startTime) (some l.endTime)) := by
  cases lyrics with
  | nil => rfl
  | cons l rest =>
    have hcontent : generateSrtContent (l :: rest)
        = coreJoin (l :: rest) 0 ++ ['\n', '\n'] := generateSrtAux_eq l rest 0
    have htrim : jsTrim (generateSrtContent (l :: rest)) = coreJoin (l :: rest) 0 := by
      rw [hcontent]
      exact jsTrim_append_nl2 _ (coreJoin_ne_nil l rest 0) (coreJoin_head_ws l rest 0)
        (coreJoin_last_ws l rest 0 htext)
    have hfilter : (coreJoin (l :: rest) 0).filter (fun c => c ≠ '\r')
        = coreJoin (l :: rest) 0 := by
      apply List.filter_eq_self.mpr
      intro a ha
      exact decide_eq_true (coreJoin_no_cr _ 0 htext a ha)
    rw [parseSrtWithTimestamps]
    simp only [htrim, hfilter, jsSplit_coreJoin l rest 0 htext]
    rw [parse_foldl, parse_bodies _ 0 htext htime, List.nil_append]

/-- Value of the formatter at 0 seconds. -/
theorem formatSrtTime_zero :
    formatSrtTime 0 = ['0','0',':','0','0',':','0','0',',','0','0','0'] := by
  have e0 : (0:ℚ) = ((0:ℕ):ℚ)/1000 := by norm_num
  rw [e0, formatSrtTime_ms]
  decide

/-- Value of the formatter at 1 second. -/
theorem formatSrtTime_one :
    formatSrtTime 1 = ['0','0',':','0','0',':','0','1',',','0','0','0'] := by
  have e1 : (1:ℚ) = ((1000:ℕ):ℚ)/1000 := by norm_num
  rw [e1, formatSrtTime_ms]
  decide

/-- **C3** (counterexample): the round trip is not exact for every
`TimedLyric` sequence.  A lyric with empty text serializes to a block whose
body has only two lines once the trailing blank lines are trimmed, so
`parseSrtWithTimestamps` rejects it (`lines.length < 3`) and returns an
empty list, losing the entry. -/
theorem claim_C3_counterexample_empty_text :
    parseSrtWithTimestamps (generateSrtContent [⟨[], 0, 1⟩]) = [] ∧
      ([(⟨[], 0, 1⟩ : TimedLyric)]).length = 1 := by
  constructor
  · have hcontent : generateSrtContent [⟨[], (0:ℚ), 1⟩]
        = natDigits 1 ++ '\n' :: (formatSrtTime 0 ++ srtSepArrow
          ++ formatSrtTime 1 ++ '\n' :: (([] : List Char) ++ ['\n', '\n'])) := by
      show srtBlock ⟨[], (0:ℚ), 1⟩ 0 ++ generateSrtAux [] 1 = _
      rw [generateSrtAux, List.append_nil, srtBlock]
    rw [hcontent, formatSrtTime_zero, formatSrtTime_one]
    decide
  · rfl

/-- **C3** (corrected): serializing a `TimedLyric` sequence with
`generateSrtContent` and parsing it back with `parseSrtWithTimestamps` does
not reproduce every sequence (an empty-text lyric is dropped, and times are
only recovered to the millisecond).  Amended property: for every sequence
whose texts are non-empty, contain no newline or carriage-return character
and do not end in whitespace, and whose start and end times are whole
non-negative numbers of milliseconds, the parse of the generated SRT text
is exactly the original `(text, startTime, endTime)` triple sequence. -/
theorem claim_C3_srt_roundtrip_amended (lyrics : List TimedLyric)
    (htext : ∀ l ∈ lyrics, TextOK l.text)
    (htime : ∀ l ∈ lyrics, MsTime l.startTime ∧ MsTime l.endTime) :
    parseSrtWithTimestamps (generateSrtContent lyrics)
      = lyrics.map (fun l => ParsedLyric.mk l.text (some l.startTime) (some l.endTime)) :=
  srt_roundtrip_core lyrics htext htime

/-- Witness for C3: a concrete two-lyric sequence with millisecond-exact
times round-trips to exactly its own triples. -/
theorem claim_C3_witness :
    parseSrtWithTimestamps (generateSrtContent
        [⟨['H', 'i'], 0, 1⟩, ⟨['Y', 'o'], 3/2, 2⟩])
      = [⟨['H', 'i'], some 0, some 1⟩, ⟨['Y', 'o'], some (3/2), some 2⟩] := by
  have h := claim_C3_srt_roundtrip_amended
    [⟨['H', 'i'], 0, 1⟩, ⟨['Y', 'o'], 3/2, 2⟩]
    (by
      intro l hl
      rcases List.mem_cons.mp hl with rfl | hl
      · exact ⟨by decide, by decide, by decide⟩
      rcases List.mem_cons.mp hl with rfl | hl
      · exact ⟨by decide, by decide, by decide⟩
      · exact absurd hl (List.not_mem_nil l))
    (by
      intro l hl
      rcases List.mem_cons.mp hl with rfl | hl
      · exact ⟨⟨0, by norm_num⟩, ⟨1000, by norm_num⟩⟩
      rcases List.mem_cons.mp hl with rfl | hl
      · exact ⟨⟨1500, by norm_num⟩, ⟨2000, by norm_num⟩⟩
      · exact absurd hl (List.not_mem_nil l))
  simpa using h
